import Mathlib

/-!
Shallow embedding of the buddy page allocator in `src/buddy.c`, together with
proofs about its invariants and operations.

Modelling conventions:
* Addresses and page indices are `Nat` (C pointers compared/offset as byte
  addresses; all values that occur stay non-negative).  The null pointer is
  address `0`.
* The per-rank doubly linked free lists of the C code store a list node inside
  the head page of each free block; a node is identified by the page that
  holds it.  We model each list as a `List Nat` of page indices.  `push_front`
  is consing, popping the head drops the first element, and the O(1) splice
  `remove_from_free_list` removes the node living at the given page, i.e. the
  occurrence of that page index in the list.
* The C `while` loops are modelled by fuel recursion whose guard is exactly
  the C loop condition.  Each fuel bound provably dominates the number of
  iterations (see the fuel lemmas below), so the fueled function agrees with
  the loop.
* `page_metadata` is a total function `Nat → page_meta_t`; the C code only
  ever accesses indices below `total_pages ≤ MAX_PAGES`.
-/

def MAX_RANK : Nat := 16

def PAGE_SIZE : Nat := 4096

def MAX_PAGES : Nat := 128 * 1024 / 4

/-- Modelled from the spec: `buddy.h` is not part of the repository.  §6 of the
spec fixes `OK = 0` and the invalid-argument / out-of-space sentinels as the
reference errno values `-EINVAL` / `-ENOSPC`. -/
def OK : Int := 0

/-- Modelled from the spec: reference errno value for invalid-argument. -/
def EINVAL : Int := 22

/-- Modelled from the spec: reference errno value for out-of-space. -/
def ENOSPC : Int := 28

/-- `page_meta_t`: per-page metadata. `rank = 0` means free/unallocated filler,
`rank > 0` is the block rank recorded at a head page.  `is_free` is set exactly
at head pages of free blocks. -/
structure page_meta_t where
  rank : Nat
  is_free : Bool
deriving DecidableEq, Repr

/-- The global state of `buddy.c`: `free_lists`, `base_addr`, `total_pages`,
`page_metadata`. -/
structure BuddyState where
  free_lists : Nat → List Nat
  base_addr : Nat
  total_pages : Nat
  page_metadata : Nat → page_meta_t

/-- `get_page_index`: address to page index, `none` for the C result `-1`. -/
def get_page_index (s : BuddyState) (p : Nat) : Option Nat :=
  if p < s.base_addr then none
  else
    let offset := p - s.base_addr
    if offset % PAGE_SIZE ≠ 0 then none
    else
      let page_idx := offset / PAGE_SIZE
      if s.total_pages ≤ page_idx then none
      else some page_idx

/-- `get_page_addr`: page index to byte address. -/
def get_page_addr (s : BuddyState) (page_idx : Nat) : Nat :=
  s.base_addr + page_idx * PAGE_SIZE

/-- `get_buddy_index`: `page_idx ^ (1 << (rank - 1))`. -/
def get_buddy_index (page_idx : Nat) (rank : Nat) : Nat :=
  page_idx ^^^ 2 ^ (rank - 1)

/-- `is_aligned`: `page_idx % (1 << (rank - 1)) == 0`. -/
def is_aligned (page_idx : Nat) (rank : Nat) : Bool :=
  page_idx % 2 ^ (rank - 1) == 0

/-- Push a block onto the front of free list `rank` (the 5-line doubly linked
push that `buddy.c` inlines at lines 83-89, 134-140 and 204-210). -/
def push_front (ls : Nat → List Nat) (rank : Nat) (idx : Nat) : Nat → List Nat :=
  fun k => if k = rank then idx :: ls rank else ls k

/-- `remove_from_free_list`: O(1) splice of the node living at page `idx` out
of list `rank`; in the list model this removes the occurrence of `idx`. -/
def remove_from_free_list (ls : Nat → List Nat) (rank : Nat) (idx : Nat) :
    Nat → List Nat :=
  fun k => if k = rank then (ls rank).erase idx else ls k

/-- Point update of the metadata table. -/
def set_meta (m : Nat → page_meta_t) (i : Nat) (v : page_meta_t) :
    Nat → page_meta_t :=
  fun j => if j = i then v else m j

/-- The inner `while` of `init_page` (lines 75-78): starting from `rank` and
counting down, find the largest rank whose block fits at `cur` and is aligned;
result `0` means no rank fits. -/
def find_init_rank (total cur : Nat) : Nat → Nat
  | 0 => 0
  | rank + 1 =>
    if total < cur + 2 ^ rank ∨ is_aligned cur (rank + 1) = false then
      find_init_rank total cur rank
    else rank + 1

/-- The outer `while` of `init_page` (lines 70-96).  Each iteration pushes a
block and advances `cur` by its size (≥ 1 page), so fuel `total` dominates the
iteration count. -/
def init_loop : Nat → (Nat → List Nat) → (Nat → page_meta_t) → Nat → Nat →
    (Nat → List Nat) × (Nat → page_meta_t)
  | 0, ls, m, _, _ => (ls, m)
  | fuel + 1, ls, m, total, cur =>
    if cur < total then
      let rank := find_init_rank total cur MAX_RANK
      if rank = 0 then (ls, m)
      else
        let block_size := 2 ^ (rank - 1)
        init_loop fuel (push_front ls rank cur)
          (set_meta m cur ⟨rank, true⟩) total (cur + block_size)
    else (ls, m)

/-- `init_page(p, pgcount)` (lines 53-99): reset the pool to the region at
address `p` with `pgcount` pages and seed the free lists greedily. -/
def init_page (s : BuddyState) (p : Nat) (pgcount : Nat) : Int × BuddyState :=
  let cleared : Nat → page_meta_t := fun i =>
    if i < pgcount then ⟨0, false⟩ else s.page_metadata i
  let lm := init_loop pgcount (fun _ => []) cleared pgcount 0
  (OK, ⟨lm.1, p, pgcount, lm.2⟩)

/-- The scan loop of `alloc_pages` (lines 107-110): first rank ≥ `cr` whose
free list is non-empty; a result above `MAX_RANK` means none.  Starting from
`cr ≥ 1` the loop runs at most `MAX_RANK` times, so fuel `MAX_RANK + 1`
dominates it. -/
def find_free_rank (ls : Nat → List Nat) : Nat → Nat → Nat
  | 0, cr => cr
  | fuel + 1, cr =>
    if cr ≤ MAX_RANK ∧ ls cr = [] then find_free_rank ls fuel (cr + 1) else cr

/-- The split loop of `alloc_pages` (lines 127-145): split the block at
`page_idx` down from `cr` to `rank`, pushing each right half.  `cr ≤ MAX_RANK`
iterations, so fuel `MAX_RANK` dominates it. -/
def split_loop : Nat → (Nat → List Nat) → (Nat → page_meta_t) → Nat → Nat → Nat →
    (Nat → List Nat) × (Nat → page_meta_t)
  | 0, ls, m, _, _, _ => (ls, m)
  | fuel + 1, ls, m, page_idx, cr, rank =>
    if rank < cr then
      let cr' := cr - 1
      let block_size := 2 ^ (cr' - 1)
      let buddy_idx := page_idx + block_size
      split_loop fuel (push_front ls cr' buddy_idx)
        (set_meta m buddy_idx ⟨cr', true⟩) page_idx cr' rank
    else (ls, m)

/-- `alloc_pages(rank)` (lines 101-151).  The `[]` branch of the match is dead
code: `find_free_rank` only answers a rank `≤ MAX_RANK` when its list is
non-empty (`find_free_rank_spec` below). -/
def alloc_pages (s : BuddyState) (rank : Int) : Except Int Nat × BuddyState :=
  if rank < 1 ∨ (MAX_RANK : Int) < rank then (Except.error (-EINVAL), s)
  else
    let rk := rank.toNat
    let cr := find_free_rank s.free_lists (MAX_RANK + 1) rk
    if MAX_RANK < cr then (Except.error (-ENOSPC), s)
    else
      match s.free_lists cr with
      | [] => (Except.error (-ENOSPC), s)
      | block :: rest =>
        let ls1 : Nat → List Nat := fun k => if k = cr then rest else s.free_lists k
        let m1 := set_meta s.page_metadata block
          ⟨(s.page_metadata block).rank, false⟩
        let lm := split_loop MAX_RANK ls1 m1 block cr rk
        let m3 := set_meta lm.2 block ⟨rk, (lm.2 block).is_free⟩
        (Except.ok (get_page_addr s block), ⟨lm.1, s.base_addr, s.total_pages, m3⟩)

/-- The merge loop of `return_pages` (lines 185-201).  `rank` strictly
increases and the loop stops at `MAX_RANK`, so fuel `MAX_RANK` dominates it.
The C guard `buddy_idx < 0` is vacuous over `Nat`. -/
def merge_loop : Nat → (Nat → List Nat) → (Nat → page_meta_t) → Nat → Nat → Nat →
    (Nat → List Nat) × (Nat → page_meta_t) × Nat × Nat
  | 0, ls, m, _, page_idx, rank => (ls, m, page_idx, rank)
  | fuel + 1, ls, m, total, page_idx, rank =>
    if rank < MAX_RANK then
      let buddy_idx := get_buddy_index page_idx rank
      if total ≤ buddy_idx then (ls, m, page_idx, rank)
      else if (m buddy_idx).is_free = false ∨ (m buddy_idx).rank ≠ rank then
        (ls, m, page_idx, rank)
      else
        merge_loop fuel (remove_from_free_list ls rank buddy_idx)
          (set_meta m buddy_idx ⟨(m buddy_idx).rank, false⟩) total
          (min page_idx buddy_idx) (rank + 1)
    else (ls, m, page_idx, rank)

/-- `return_pages(p)` (lines 169-217). -/
def return_pages (s : BuddyState) (p : Nat) : Int × BuddyState :=
  if p = 0 then (-EINVAL, s)
  else
    match get_page_index s p with
    | none => (-EINVAL, s)
    | some page_idx =>
      let rank := (s.page_metadata page_idx).rank
      if rank = 0 ∨ (s.page_metadata page_idx).is_free = true then (-EINVAL, s)
      else
        let r := merge_loop MAX_RANK s.free_lists s.page_metadata s.total_pages
          page_idx rank
        (OK, ⟨push_front r.1 r.2.2.2 r.2.2.1, s.base_addr, s.total_pages,
          set_meta r.2.1 r.2.2.1 ⟨r.2.2.2, true⟩⟩)

/-- The downward `for` loop of `query_ranks` (lines 231-241). -/
def query_loop (m : Nat → page_meta_t) (total page_idx : Nat) : Nat → Option Nat
  | 0 => none
  | rank + 1 =>
    if is_aligned page_idx (rank + 1) = false then query_loop m total page_idx rank
    else if total < page_idx + 2 ^ rank then query_loop m total page_idx rank
    else if (m page_idx).is_free = true ∧ (m page_idx).rank = rank + 1 then
      some (rank + 1)
    else query_loop m total page_idx rank

/-- `query_ranks(p)` (lines 219-244); the state component records that the C
function performs no write to the globals. -/
def query_ranks (s : BuddyState) (p : Nat) : Int × BuddyState :=
  match get_page_index s p with
  | none => (-EINVAL, s)
  | some page_idx =>
    if (s.page_metadata page_idx).is_free = false ∧
        0 < (s.page_metadata page_idx).rank then
      (((s.page_metadata page_idx).rank : Int), s)
    else
      match query_loop s.page_metadata s.total_pages page_idx MAX_RANK with
      | some r => ((r : Int), s)
      | none => (1, s)

/-- `query_page_counts(rank)` (lines 246-259): the traversal count of list
`rank` is its length. -/
def query_page_counts (s : BuddyState) (rank : Int) : Int × BuddyState :=
  if rank < 1 ∨ (MAX_RANK : Int) < rank then (-EINVAL, s)
  else (((s.free_lists rank.toNat).length : Int), s)

/-- The initial global state of the C translation unit: zeroed statics. -/
def initial_state : BuddyState :=
  ⟨fun _ => [], 0, 0, fun _ => ⟨0, false⟩⟩

/-!
Reachability.  `Reachable` closes the initial state under arbitrary calls of
the five public operations; `init_page` is constrained to the spec's §4.3
contract for a valid pool: a non-null page-aligned base and at most
`MAX_PAGES` pages.
-/

inductive Reachable : BuddyState → Prop where
  | start : Reachable initial_state
  | init (s : BuddyState) (hs : Reachable s) (p pgcount : Nat) (hp : 0 < p)
      (ha : p % PAGE_SIZE = 0) (hn : pgcount ≤ MAX_PAGES) :
      Reachable (init_page s p pgcount).2
  | alloc (s : BuddyState) (hs : Reachable s) (rank : Int) :
      Reachable (alloc_pages s rank).2
  | release (s : BuddyState) (hs : Reachable s) (p : Nat) :
      Reachable (return_pages s p).2
  | qranks (s : BuddyState) (hs : Reachable s) (p : Nat) :
      Reachable (query_ranks s p).2
  | qcounts (s : BuddyState) (hs : Reachable s) (rank : Int) :
      Reachable (query_page_counts s rank).2

/-!
Ghost instrumentation.  The spec speaks of "allocated blocks" (created by
`alloc`, destroyed by `release`); the code does not store them, so we track
them alongside the state as ghost data: a list of `(head page, rank)` pairs.
-/

structure GhostState where
  st : BuddyState
  allocated : List (Nat × Nat)

/-- `init_page`, instrumented: no block is allocated after a re-init. -/
def ginit (g : GhostState) (p pgcount : Nat) : GhostState :=
  ⟨(init_page g.st p pgcount).2, []⟩

/-- `alloc_pages`, instrumented: a successful call creates the allocated
block at the returned address with the requested rank. -/
def galloc (g : GhostState) (rank : Int) : GhostState :=
  match alloc_pages g.st rank with
  | (Except.ok a, s') => ⟨s', ((a - s'.base_addr) / PAGE_SIZE, rank.toNat) :: g.allocated⟩
  | (Except.error _, s') => ⟨s', g.allocated⟩

/-- `return_pages`, instrumented: a successful call destroys the allocated
block headed at the released page (if there is one). -/
def grelease (g : GhostState) (p : Nat) : GhostState :=
  let r := return_pages g.st p
  if r.1 = OK then
    ⟨r.2, g.allocated.eraseP (fun e => e.1 == (p - g.st.base_addr) / PAGE_SIZE)⟩
  else ⟨r.2, g.allocated⟩

/-- Ghost states reachable under the spec's usage contract: `return_pages` is
only called on the address of the head of a currently allocated block
(§4.5 Input: "previously returned by `alloc` and not yet released"). -/
inductive GValid : GhostState → Prop where
  | start : GValid ⟨initial_state, []⟩
  | init (g : GhostState) (hg : GValid g) (p pgcount : Nat) (hp : 0 < p)
      (ha : p % PAGE_SIZE = 0) (hn : pgcount ≤ MAX_PAGES) :
      GValid (ginit g p pgcount)
  | alloc (g : GhostState) (hg : GValid g) (rank : Int) : GValid (galloc g rank)
  | release (g : GhostState) (hg : GValid g) (a pi r : Nat)
      (hpage : get_page_index g.st a = some pi) (hmem : (pi, r) ∈ g.allocated) :
      GValid (grelease g a)
  | qranks (g : GhostState) (hg : GValid g) (p : Nat) :
      GValid ⟨(query_ranks g.st p).2, g.allocated⟩
  | qcounts (g : GhostState) (hg : GValid g) (rank : Int) :
      GValid ⟨(query_page_counts g.st rank).2, g.allocated⟩

/-!
Blocks, page sums and coverage, for the conservation property.
-/

/-- The free blocks of a state: every member of free list `r` is a block
`(head page, r)`, for `r = 1..MAX_RANK`. -/
def free_blocks (s : BuddyState) : List (Nat × Nat) :=
  ((List.range MAX_RANK).map
    (fun k => (s.free_lists (k + 1)).map (fun p => (p, k + 1)))).flatten

/-- Pages spanned by a block of rank `r`: `2^(r-1)`. -/
def block_pages (e : Nat × Nat) : Nat := 2 ^ (e.2 - 1)

/-- Total pages spanned by a list of blocks. -/
def sum_pages (l : List (Nat × Nat)) : Nat := (l.map block_pages).sum

/-- Does block `e` cover page `pg`? -/
def covers (e : Nat × Nat) (pg : Nat) : Bool :=
  decide (e.1 ≤ pg ∧ pg < e.1 + 2 ^ (e.2 - 1))

/-- Number of blocks in `l` covering page `pg`. -/
def cover_count (l : List (Nat × Nat)) (pg : Nat) : Nat :=
  l.countP (fun e => covers e pg)

/-!
Concrete traces used as counterexamples / witnesses.  Each is an explicit
composition of the public operations starting from the pristine C state, with
a page-aligned non-null base address 4096.
-/

/-- Two-page pool, one allocation, released: the merge absorbs the buddy at
page 1, leaving its stale `rank = 1` metadata behind. -/
def trace9 : GhostState :=
  grelease (galloc (ginit ⟨initial_state, []⟩ 4096 2) 1) 4096

/-- `trace9` followed by a release of page 1's address, which the stale
metadata lets through. -/
def trace1 : GhostState := grelease trace9 8192

/-- Two-page pool, both pages allocated at rank 1, first page released; the
block at page 1 is the only allocated block. -/
def trace4 : GhostState :=
  grelease (galloc (galloc (ginit ⟨initial_state, []⟩ 4096 2) 1) 1) 4096

/-- Four-page pool, two rank-2 allocations, both released in order; the merge
leaves stale `rank = 2` metadata at page 2, now interior to the free rank-3
block at page 0. -/
def trace8 : GhostState :=
  grelease (grelease (galloc (galloc (ginit ⟨initial_state, []⟩ 4096 4) 2) 2)
    4096) 12288

/-- Eight-page pool driven into a corrupted state: seven rank-1 allocations,
releases of pages 4, 5, 6, a double release of page 6 (accepted via stale
metadata), a rank-2 allocation, and a release of page 7's address. -/
def trace2 : BuddyState :=
  (return_pages (alloc_pages (return_pages (return_pages (return_pages
    (return_pages
      (alloc_pages (alloc_pages (alloc_pages (alloc_pages (alloc_pages
        (alloc_pages (alloc_pages (init_page initial_state 4096 8).2
          1).2 1).2 1).2 1).2 1).2 1).2 1).2
      20480).2 24576).2 28672).2 28672).2 2).2 32768).2

/-- The robust state invariant: facts that hold in every state reachable by
arbitrary (even contract-violating) call sequences.
* `base`: the pool has a non-null base unless it is empty;
* `lists0` / `listsHi`: only lists `1..MAX_RANK` are ever populated;
* `mem`: every member of free list `r` is rank-`r` aligned and fits the pool;
* `meta`: every in-pool page's metadata rank is `0` or a rank in
  `[1, MAX_RANK]` at which the page is aligned and fits (ranks are written
  only together with such evidence, and survive unchanged);
* `freeIn`: a page marked `is_free` sits in the free list of its recorded
  rank (every `is_free := 1` write accompanies a push of that page);
* `ob`: if a member `m` of list `r < MAX_RANK` has its buddy marked
  `⟨r, true⟩`, that buddy entered list `r` after `m` (it sits strictly
  before `m`'s first occurrence) — pushes onto list `r` either verify the
  buddy is not `⟨r, true⟩` (the merge-loop break condition) or happen at the
  head of an otherwise empty list. -/
structure RInv (s : BuddyState) : Prop where
  base : 0 < s.base_addr ∨ s.total_pages = 0
  lists0 : s.free_lists 0 = []
  listsHi : ∀ r, MAX_RANK < r → s.free_lists r = []
  mem : ∀ r, 1 ≤ r → r ≤ MAX_RANK → ∀ p ∈ s.free_lists r,
    p % 2 ^ (r - 1) = 0 ∧ p + 2 ^ (r - 1) ≤ s.total_pages
  meta : ∀ q, q < s.total_pages → (s.page_metadata q).rank = 0 ∨
    (1 ≤ (s.page_metadata q).rank ∧ (s.page_metadata q).rank ≤ MAX_RANK ∧
     q % 2 ^ ((s.page_metadata q).rank - 1) = 0 ∧
     q + 2 ^ ((s.page_metadata q).rank - 1) ≤ s.total_pages)
  freeIn : ∀ q, q < s.total_pages → (s.page_metadata q).is_free = true →
    q ∈ s.free_lists (s.page_metadata q).rank
  ob : ∀ r, 1 ≤ r → r < MAX_RANK → ∀ m ∈ s.free_lists r,
    get_buddy_index m r < s.total_pages →
    s.page_metadata (get_buddy_index m r) = ⟨r, true⟩ →
    get_buddy_index m r ∈ (s.free_lists r).takeWhile (fun x => x ≠ m)

/-- Invariant of the `init_page` greedy walk, talking only about the lists
and metadata it builds: blocks are aligned and fit, metadata marks exactly
the pushed heads, and each pushed rank was maximal (no larger rank both
aligned and fitting, except at `MAX_RANK`). -/
structure InitInv (total : Nat) (ls : Nat → List Nat) (m : Nat → page_meta_t) :
    Prop where
  lists0 : ls 0 = []
  listsHi : ∀ r, MAX_RANK < r → ls r = []
  mem : ∀ r, 1 ≤ r → r ≤ MAX_RANK → ∀ q ∈ ls r,
    q % 2 ^ (r - 1) = 0 ∧ q + 2 ^ (r - 1) ≤ total
  meta : ∀ q, q < total → (m q).rank = 0 ∨
    (1 ≤ (m q).rank ∧ (m q).rank ≤ MAX_RANK ∧
     q % 2 ^ ((m q).rank - 1) = 0 ∧ q + 2 ^ ((m q).rank - 1) ≤ total)
  freeIn : ∀ q, q < total → (m q).is_free = true → q ∈ ls ((m q).rank)
  coh : ∀ r, ∀ q ∈ ls r, m q = ⟨r, true⟩
  maxi : ∀ r, 1 ≤ r → r ≤ MAX_RANK → ∀ q ∈ ls r,
    r = MAX_RANK ∨ total < q + 2 ^ r ∨ ¬ q % 2 ^ r = 0

/-- `1` if block `e` covers page `pg`, else `0`. -/
def cnt (e : Nat × Nat) (pg : Nat) : Nat := if covers e pg then 1 else 0

/-- Per-rank tally of the free-list blocks covering page `pg`. -/
def covSum (ls : Nat → List Nat) (pg : Nat) : Nat :=
  ((List.range MAX_RANK).map
    (fun k => (ls (k + 1)).countP (fun q => covers (q, k + 1) pg))).sum

/-- The valid-usage invariant on instrumented states: the free lists are
well-formed and coherent with the metadata, the ghost allocated blocks match
their metadata, free buddy pairs are coalesced, and the free and allocated
blocks tile `[0, total_pages)` exactly. -/
structure VInv (g : GhostState) : Prop where
  base : 0 < g.st.base_addr ∨ g.st.total_pages = 0
  lists0 : g.st.free_lists 0 = []
  listsHi : ∀ r, MAX_RANK < r → g.st.free_lists r = []
  mem : ∀ r, 1 ≤ r → r ≤ MAX_RANK → ∀ p ∈ g.st.free_lists r,
    p % 2 ^ (r - 1) = 0 ∧ p + 2 ^ (r - 1) ≤ g.st.total_pages
  coh : ∀ r, ∀ p ∈ g.st.free_lists r, g.st.page_metadata p = ⟨r, true⟩
  freeIn : ∀ q, q < g.st.total_pages →
    (g.st.page_metadata q).is_free = true →
    q ∈ g.st.free_lists ((g.st.page_metadata q).rank)
  amem : ∀ e ∈ g.allocated, g.st.page_metadata e.1 = ⟨e.2, false⟩ ∧
    1 ≤ e.2 ∧ e.2 ≤ MAX_RANK ∧ e.1 % 2 ^ (e.2 - 1) = 0 ∧
    e.1 + 2 ^ (e.2 - 1) ≤ g.st.total_pages
  nopair : ∀ r, 1 ≤ r → r < MAX_RANK → ∀ p ∈ g.st.free_lists r,
    get_buddy_index p r ∉ g.st.free_lists r
  cover : ∀ pg, pg < g.st.total_pages →
    covSum g.st.free_lists pg + cover_count g.allocated pg = 1

/-!
Theorems.
-/

/-- `get_page_index` inverts `get_page_addr` for in-range page indices. -/
theorem get_page_index_addr (s : BuddyState) (i : Nat) :
    get_page_index s (s.base_addr + i * PAGE_SIZE) =
      if s.total_pages ≤ i then none else some i := by
  have h1 : ¬ s.base_addr + i * PAGE_SIZE < s.base_addr := by omega
  have h2 : s.base_addr + i * PAGE_SIZE - s.base_addr = i * PAGE_SIZE := by omega
  have h3 : i * PAGE_SIZE % PAGE_SIZE = 0 := Nat.mul_mod_left i PAGE_SIZE
  have h4 : i * PAGE_SIZE / PAGE_SIZE = i :=
    Nat.mul_div_cancel i (by norm_num [PAGE_SIZE])
  simp [get_page_index, h1, h2, h3, h4]

/-- `query_ranks` performs no state write. -/
theorem query_ranks_state (s : BuddyState) (p : Nat) : (query_ranks s p).2 = s := by
  unfold query_ranks
  cases h : get_page_index s p with
  | none => rfl
  | some pi =>
    simp only []
    split
    · rfl
    · cases hq : query_loop s.page_metadata s.total_pages pi MAX_RANK <;> rfl

/-- `query_page_counts` performs no state write. -/
theorem query_page_counts_state (s : BuddyState) (rank : Int) :
    (query_page_counts s rank).2 = s := by
  unfold query_page_counts
  split <;> rfl

/-- C10: `query_page_counts` and `query_ranks` mutate no allocator state, and
two consecutive calls with the same argument return identical values. -/
theorem C10_queries_pure (s : BuddyState) (p : Nat) (rank : Int) :
    (query_ranks s p).2 = s ∧ (query_page_counts s rank).2 = s ∧
    (query_ranks (query_ranks s p).2 p).1 = (query_ranks s p).1 ∧
    (query_page_counts (query_page_counts s rank).2 rank).1 =
      (query_page_counts s rank).1 :=
  ⟨query_ranks_state s p, query_page_counts_state s rank,
   by rw [query_ranks_state s p], by rw [query_page_counts_state s rank]⟩

/-- An erroring `alloc_pages` call leaves the state untouched (all its
writes happen after validation and scan both succeed). -/
theorem alloc_pages_error_state (s : BuddyState) (rank : Int) (e : Int)
    (he : (alloc_pages s rank).1 = Except.error e) : (alloc_pages s rank).2 = s := by
  by_cases h1 : rank < 1 ∨ (MAX_RANK : Int) < rank
  · simp [alloc_pages, h1]
  · by_cases h2 : MAX_RANK < find_free_rank s.free_lists (MAX_RANK + 1) rank.toNat
    · simp [alloc_pages, h1, h2]
    · cases hm : s.free_lists (find_free_rank s.free_lists (MAX_RANK + 1) rank.toNat) with
      | nil => simp [alloc_pages, h1, h2, hm]
      | cons b rest => simp [alloc_pages, h1, h2, hm] at he

/-- An erroring `return_pages` call leaves the state untouched. -/
theorem return_pages_error_state (s : BuddyState) (p : Nat)
    (hne : (return_pages s p).1 ≠ OK) : (return_pages s p).2 = s := by
  by_cases h0 : p = 0
  · simp [return_pages, h0]
  · cases hg : get_page_index s p with
    | none => simp [return_pages, h0, hg]
    | some pi =>
      by_cases hv : (s.page_metadata pi).rank = 0 ∨ (s.page_metadata pi).is_free = true
      · simp [return_pages, h0, hg, hv]
      · exact absurd (by simp [return_pages, h0, hg, hv]) hne

/-- C5: on any error return of `alloc_pages` or `return_pages`, the state is
exactly the pre-call state. -/
theorem C5_error_atomicity (s : BuddyState) (rank : Int) (p : Nat) :
    (∀ e : Int, (alloc_pages s rank).1 = Except.error e →
      (alloc_pages s rank).2 = s) ∧
    ((return_pages s p).1 ≠ OK → (return_pages s p).2 = s) :=
  ⟨fun e he => alloc_pages_error_state s rank e he,
   fun hne => return_pages_error_state s p hne⟩

/-- Characterization of the `alloc_pages` scan loop: with enough fuel the
result is at least `cr`, all lists strictly before it are empty, and if it is
within range its list is non-empty. -/
theorem find_free_rank_spec (ls : Nat → List Nat) :
    ∀ fuel cr, MAX_RANK + 1 ≤ fuel + cr →
      cr ≤ find_free_rank ls fuel cr ∧
      (∀ k, cr ≤ k → k < find_free_rank ls fuel cr → ls k = []) ∧
      (find_free_rank ls fuel cr ≤ MAX_RANK → ls (find_free_rank ls fuel cr) ≠ []) := by
  intro fuel
  induction fuel with
  | zero =>
    intro cr h
    refine ⟨Nat.le_refl _, ?_, ?_⟩
    · intro k h1 h2
      exact absurd (Nat.lt_of_le_of_lt h1 h2) (Nat.lt_irrefl _)
    · intro hle
      unfold find_free_rank at hle
      omega
  | succ n ih =>
    intro cr h
    unfold find_free_rank
    split
    · case isTrue hc =>
      have hrec := ih (cr + 1) (by omega)
      refine ⟨by omega, ?_, hrec.2.2⟩
      intro k h1 h2
      rcases Nat.eq_or_lt_of_le h1 with h3 | h3
      · rw [← h3]; exact hc.2
      · exact hrec.2.1 k h3 h2
    · case isFalse hc =>
      refine ⟨Nat.le_refl _, ?_, ?_⟩
      · intro k h1 h2; omega
      · intro hle h0
        exact hc ⟨hle, h0⟩

/-- C6: `alloc_pages` returns `-EINVAL` exactly off-range; within range it
returns `-ENOSPC` iff every free list from the requested rank up to `MAX_RANK`
is empty, and otherwise an address. -/
theorem C6_alloc_error_conditions (s : BuddyState) (rank : Int) :
    (rank < 1 ∨ (MAX_RANK : Int) < rank →
      (alloc_pages s rank).1 = Except.error (-EINVAL)) ∧
    (1 ≤ rank → rank ≤ (MAX_RANK : Int) →
      ((alloc_pages s rank).1 = Except.error (-ENOSPC) ↔
        ∀ k : Nat, rank.toNat ≤ k → k ≤ MAX_RANK → s.free_lists k = []) ∧
      ((¬ ∀ k : Nat, rank.toNat ≤ k → k ≤ MAX_RANK → s.free_lists k = []) →
        ∃ a, (alloc_pages s rank).1 = Except.ok a)) := by
  constructor
  · intro h
    simp [alloc_pages, h]
  · intro hlo hhi
    have hval : ¬ (rank < 1 ∨ (MAX_RANK : Int) < rank) := by omega
    have hspec := find_free_rank_spec s.free_lists (MAX_RANK + 1) rank.toNat
      (by omega)
    set R := find_free_rank s.free_lists (MAX_RANK + 1) rank.toNat with hR
    constructor
    · constructor
      · intro he
        intro k hk1 hk2
        by_cases hbig : MAX_RANK < R
        · exact hspec.2.1 k hk1 (by omega)
        · push_neg at hbig
          have hnlt : ¬ MAX_RANK < R := by omega
          have hne := hspec.2.2 hbig
          obtain ⟨b, rest, hm⟩ := List.exists_cons_of_ne_nil hne
          rw [show (alloc_pages s rank).1 = Except.ok (get_page_addr s b) by
            simp [alloc_pages, hval, hnlt, ← hR, hm]] at he
          exact absurd he (by simp)
      · intro hall
        have hbig : MAX_RANK < R := by
          by_contra hle
          push_neg at hle
          exact hspec.2.2 hle (hall R hspec.1 hle)
        simp [alloc_pages, hval, ← hR, hbig]
    · intro hnall
      have hbig : ¬ MAX_RANK < R := by
        intro hgt
        exact hnall (fun k hk1 hk2 => hspec.2.1 k hk1 (by omega))
      push_neg at hbig
      have hnlt : ¬ MAX_RANK < R := by omega
      have hne := hspec.2.2 hbig
      obtain ⟨b, rest, hm⟩ := List.exists_cons_of_ne_nil hne
      exact ⟨get_page_addr s b, by simp [alloc_pages, hval, ← hR, hnlt, hm]⟩

/-- Witness for C5 at concrete inputs. -/
theorem C5_error_atomicity_witness :
    (alloc_pages initial_state 0).2 = initial_state ∧
    (return_pages initial_state 0).2 = initial_state :=
  ⟨(C5_error_atomicity initial_state 0 0).1 (-EINVAL) rfl,
   (C5_error_atomicity initial_state 0 0).2 (by decide)⟩

/-- Witness for C6 at concrete inputs: invalid rank and empty pool. -/
theorem C6_alloc_error_conditions_witness :
    (alloc_pages initial_state 0).1 = Except.error (-EINVAL) ∧
    (alloc_pages initial_state 5).1 = Except.error (-ENOSPC) :=
  ⟨(C6_alloc_error_conditions initial_state 0).1 (by decide),
   ((C6_alloc_error_conditions initial_state 5).2 (by decide) (by decide)).1.mpr
     (fun _ _ _ => rfl)⟩

/-- `get_page_index` of the base address itself is page 0 of a non-empty pool. -/
theorem get_page_index_base (s : BuddyState) (h : s.total_pages ≠ 0) :
    get_page_index s s.base_addr = some 0 := by
  have h2 := get_page_index_addr s 0
  rw [Nat.zero_mul, Nat.add_zero] at h2
  rw [h2, if_neg (by omega)]

/-- C9: after `init(B,2); alloc(1); release(B)` no block is allocated, page 1
is the head of the buddy absorbed by the merge (now interior to the free
rank-2 block at page 0, with stale `rank = 1` metadata), yet releasing its
address is accepted. -/
theorem C9_stale_metadata_release :
    trace9.allocated = [] ∧
    get_page_index trace9.st 8192 = some 1 ∧
    0 ∈ trace9.st.free_lists 2 ∧
    (trace9.st.page_metadata 1).is_free = false ∧
    (trace9.st.page_metadata 1).rank = 1 ∧
    (return_pages trace9.st 8192).1 = OK := by decide

/-- C4 (code bug): at the concrete failing input, `8192` heads the only
currently allocated block, its release returns `OK`, and the immediately
following second release of the same address also returns `OK`, not
`-EINVAL`. -/
theorem C4_double_release_bug :
    trace4.allocated = [(1, 1)] ∧
    get_page_index trace4.st 8192 = some 1 ∧
    (return_pages trace4.st 8192).1 = OK ∧
    (return_pages (return_pages trace4.st 8192).2 8192).1 = OK ∧
    OK ≠ -EINVAL := by decide

/-- C1 counterexample: after `init(B,2); alloc(1); release(B); release(B+4096)`
(the last call accepted through stale metadata) the blocks over-count the
pool: free pages plus allocated pages is not `total_pages`, and page 1 is
covered twice. -/
theorem C1_counterexample :
    sum_pages (free_blocks trace1.st) + sum_pages trace1.allocated ≠
      trace1.st.total_pages ∧
    cover_count (free_blocks trace1.st ++ trace1.allocated) 1 ≠ 1 ∧
    1 < trace1.st.total_pages := by decide

/-- C2 counterexample: `trace2` is produced by public operations on a validly
initialized pool, yet pages 6 and 7 are simultaneously free at rank 1 and are
buddies (`6 XOR 2^0 = 7`). -/
theorem C2_counterexample :
    6 ∈ trace2.free_lists 1 ∧ 7 ∈ trace2.free_lists 1 ∧
    get_buddy_index 6 1 = 7 ∧ 1 < MAX_RANK := by decide

/-- C8 counterexample: in `trace8` (reached by contract-respecting calls),
page 2 is a valid page that heads no allocated block and no free block — it is
interior to the free rank-3 block at page 0 — yet `query_ranks` answers its
stale metadata rank 2, not 1. -/
theorem C8_counterexample :
    trace8.allocated = [] ∧
    get_page_index trace8.st 12288 = some 2 ∧
    (∀ r : Nat, r ≤ MAX_RANK → 2 ∉ trace8.st.free_lists r) ∧
    0 ∈ trace8.st.free_lists 3 ∧
    (query_ranks trace8.st 12288).1 = 2 := by decide

/-- C7: after `init_page(B, 8)` on a page-aligned base `B`, `alloc_pages(1)`
returns exactly `B`; the free-list counts are 1 at ranks 1, 2, 3 and 0 at
rank 4, and `query_ranks(B)` answers 1. -/
theorem C7_split_scenario (B : Nat) (hB : B % PAGE_SIZE = 0) :
    (alloc_pages (init_page initial_state B 8).2 1).1 = Except.ok B ∧
    (query_page_counts (alloc_pages (init_page initial_state B 8).2 1).2 1).1 = 1 ∧
    (query_page_counts (alloc_pages (init_page initial_state B 8).2 1).2 2).1 = 1 ∧
    (query_page_counts (alloc_pages (init_page initial_state B 8).2 1).2 3).1 = 1 ∧
    (query_page_counts (alloc_pages (init_page initial_state B 8).2 1).2 4).1 = 0 ∧
    (query_ranks (alloc_pages (init_page initial_state B 8).2 1).2 B).1 = 1 := by
  refine ⟨rfl, rfl, rfl, rfl, rfl, ?_⟩
  have hb : (alloc_pages (init_page initial_state B 8).2 1).2.base_addr = B := rfl
  have e : get_page_index (alloc_pages (init_page initial_state B 8).2 1).2 B =
      some 0 := by
    have h2 := get_page_index_addr (alloc_pages (init_page initial_state B 8).2 1).2 0
    have ht : (alloc_pages (init_page initial_state B 8).2 1).2.total_pages = 8 := rfl
    rw [Nat.zero_mul, Nat.add_zero, hb, ht] at h2
    rw [h2, if_neg (by decide)]
  simp only [query_ranks, e]
  rfl

/-- Witness for C7 at the concrete aligned base 4096. -/
theorem C7_split_scenario_witness :
    (alloc_pages (init_page initial_state 4096 8).2 1).1 = Except.ok 4096 ∧
    (query_page_counts (alloc_pages (init_page initial_state 4096 8).2 1).2 1).1 = 1 ∧
    (query_page_counts (alloc_pages (init_page initial_state 4096 8).2 1).2 2).1 = 1 ∧
    (query_page_counts (alloc_pages (init_page initial_state 4096 8).2 1).2 3).1 = 1 ∧
    (query_page_counts (alloc_pages (init_page initial_state 4096 8).2 1).2 4).1 = 0 ∧
    (query_ranks (alloc_pages (init_page initial_state 4096 8).2 1).2 4096).1 = 1 :=
  C7_split_scenario 4096 (by decide)

/-- A multiple of `2^(m+1)` gains the bit `2^m` under XOR by addition. -/
theorem aligned_xor_add {p m : Nat} (h : p % 2 ^ (m + 1) = 0) :
    p ^^^ 2 ^ m = p + 2 ^ m := by
  obtain ⟨q, hq⟩ := Nat.dvd_of_mod_eq_zero h
  subst hq
  apply Nat.eq_of_testBit_eq
  intro j
  have hlt : (2 : Nat) ^ m < 2 ^ (m + 1) := Nat.pow_lt_pow_succ (by omega)
  have h0 : (0 : Nat) < 2 ^ (m + 1) := Nat.two_pow_pos _
  have e2 : 2 ^ (m + 1) * q = 2 ^ (m + 1) * q + 0 := by omega
  rw [Nat.testBit_xor, Nat.testBit_mul_pow_two_add q hlt j]
  conv_lhs => rw [e2]
  rw [Nat.testBit_mul_pow_two_add q h0 j]
  by_cases hj : j < m + 1
  · simp only [hj, if_true, Nat.zero_testBit, Bool.false_xor]
  · have hjm : m ≠ j := by omega
    simp only [hj, if_false, Nat.testBit_two_pow_of_ne hjm, Bool.xor_false]

/-- A number congruent to `2^m` modulo `2^(m+1)` loses the bit under XOR. -/
theorem aligned_xor_sub {p m : Nat} (h : p % 2 ^ (m + 1) = 2 ^ m) :
    p ^^^ 2 ^ m = p - 2 ^ m := by
  have hle : 2 ^ m ≤ p := h ▸ Nat.mod_le p (2 ^ (m + 1))
  have hdm := Nat.div_add_mod p (2 ^ (m + 1))
  have hsub : p - 2 ^ m = 2 ^ (m + 1) * (p / 2 ^ (m + 1)) := by omega
  have hz : (p - 2 ^ m) % 2 ^ (m + 1) = 0 := by
    rw [hsub]; exact Nat.mul_mod_right _ _
  have hx := aligned_xor_add hz
  have hp : (p - 2 ^ m) + 2 ^ m = p := by omega
  rw [hp] at hx
  calc p ^^^ 2 ^ m = ((p - 2 ^ m) ^^^ 2 ^ m) ^^^ 2 ^ m := by rw [hx]
    _ = (p - 2 ^ m) ^^^ (2 ^ m ^^^ 2 ^ m) := Nat.xor_assoc _ _ _
    _ = p - 2 ^ m := by rw [Nat.xor_self, Nat.xor_zero]

/-- A rank-aligned index is congruent to `0` or `2^m` modulo `2^(m+1)`. -/
theorem aligned_mod_cases {p m : Nat} (h : p % 2 ^ m = 0) :
    p % 2 ^ (m + 1) = 0 ∨ p % 2 ^ (m + 1) = 2 ^ m := by
  have h2 : (2 : Nat) ^ (m + 1) = 2 ^ m * 2 := by ring
  rw [h2, Nat.mod_mul, h]
  rcases Nat.mod_two_eq_zero_or_one (p / 2 ^ m) with h3 | h3 <;> rw [h3] <;> simp

/-- Case analysis for the buddy of a rank-aligned index. -/
theorem buddy_cases {p m : Nat} (h : p % 2 ^ m = 0) :
    (p % 2 ^ (m + 1) = 0 ∧ p ^^^ 2 ^ m = p + 2 ^ m) ∨
    (p % 2 ^ (m + 1) = 2 ^ m ∧ 2 ^ m ≤ p ∧ p ^^^ 2 ^ m = p - 2 ^ m ∧
      (p - 2 ^ m) % 2 ^ (m + 1) = 0) := by
  rcases aligned_mod_cases h with hc | hc
  · exact Or.inl ⟨hc, aligned_xor_add hc⟩
  · have hle : 2 ^ m ≤ p := hc ▸ Nat.mod_le p (2 ^ (m + 1))
    have hdm := Nat.div_add_mod p (2 ^ (m + 1))
    have hsub : p - 2 ^ m = 2 ^ (m + 1) * (p / 2 ^ (m + 1)) := by omega
    exact Or.inr ⟨hc, hle, aligned_xor_sub hc,
      by rw [hsub]; exact Nat.mul_mod_right _ _⟩

/-- The buddy of an index differs from it. -/
theorem buddy_ne (p m : Nat) : p ^^^ 2 ^ m ≠ p := by
  intro h
  have h2 : p ^^^ 2 ^ m = p ^^^ 0 := by rw [Nat.xor_zero]; exact h
  have h3 := Nat.xor_right_inj.mp h2
  exact absurd h3 (Nat.pos_iff_ne_zero.mp (Nat.two_pow_pos m))


/-- Membership in a `takeWhile` survives erasing a different element. -/
theorem mem_takeWhile_erase {l : List Nat} {a b : Nat} {q : Nat → Bool}
    (h : a ∈ l.takeWhile q) (hne : a ≠ b) : a ∈ (l.erase b).takeWhile q := by
  induction l with
  | nil => simp at h
  | cons c t ih =>
    by_cases hcb : c = b
    · subst hcb
      rw [List.erase_cons_head]
      by_cases hqc : q c
      · rw [List.takeWhile_cons_of_pos hqc] at h
        rcases List.mem_cons.mp h with h1 | h1
        · exact absurd h1 hne
        · exact h1
      · rw [List.takeWhile_cons_of_neg (by simpa using hqc)] at h
        simp at h
    · rw [List.erase_cons_tail (by simpa using hcb)]
      by_cases hqc : q c
      · rw [List.takeWhile_cons_of_pos hqc] at h ⊢
        rcases List.mem_cons.mp h with h1 | h1
        · exact List.mem_cons.mpr (Or.inl h1)
        · exact List.mem_cons.mpr (Or.inr (ih h1))
      · rw [List.takeWhile_cons_of_neg (by simpa using hqc)] at h
        simp at h

/-- Lists after the split loop: each rank in `[rank, cr)` gains the right
half `p + 2^(k-1)` at its front; other lists are untouched. -/
theorem split_loop_list (fuel : Nat) :
    ∀ ls m p cr rank, cr ≤ fuel + rank → ∀ j,
      (split_loop fuel ls m p cr rank).1 j =
        if rank ≤ j ∧ j < cr then (p + 2 ^ (j - 1)) :: ls j else ls j := by
  induction fuel with
  | zero =>
    intro ls m p cr rank h j
    rw [if_neg (by omega)]
    rfl
  | succ n ih =>
    intro ls m p cr rank h j
    simp only [split_loop]
    by_cases hc : rank < cr
    · rw [if_pos hc, ih _ _ _ _ _ (by omega) j]
      by_cases h1 : rank ≤ j ∧ j < cr - 1
      · rw [if_pos h1, if_pos (by omega)]
        unfold push_front
        rw [if_neg (by omega)]
      · rw [if_neg h1]
        by_cases h2 : j = cr - 1
        · subst h2
          unfold push_front
          rw [if_pos rfl, if_pos (by omega)]
        · unfold push_front
          rw [if_neg h2, if_neg (by omega)]
    · rw [if_neg hc, if_neg (by omega)]

/-- Metadata untouched by the split loop away from the pushed right halves. -/
theorem split_loop_meta_miss (fuel : Nat) :
    ∀ ls m p cr rank q, (∀ j, rank ≤ j → j < cr → q ≠ p + 2 ^ (j - 1)) →
      (split_loop fuel ls m p cr rank).2 q = m q := by
  induction fuel with
  | zero => intro ls m p cr rank q _; rfl
  | succ n ih =>
    intro ls m p cr rank q hq
    simp only [split_loop]
    by_cases hc : rank < cr
    · rw [if_pos hc, ih _ _ _ _ _ _ (fun j hj1 hj2 => hq j hj1 (by omega))]
      unfold set_meta
      rw [if_neg (hq (cr - 1) (by omega) (by omega))]
    · rw [if_neg hc]

/-- Metadata of a pushed right half after the split loop. -/
theorem split_loop_meta_hit (fuel : Nat) :
    ∀ ls m p cr rank j, 1 ≤ rank → rank ≤ j → j < cr → cr ≤ fuel + rank →
      (split_loop fuel ls m p cr rank).2 (p + 2 ^ (j - 1)) = ⟨j, true⟩ := by
  induction fuel with
  | zero => intro ls m p cr rank j h1 h2 h3 h4; omega
  | succ n ih =>
    intro ls m p cr rank j h1 h2 h3 h4
    simp only [split_loop]
    rw [if_pos (by omega)]
    by_cases hj : j = cr - 1
    · subst hj
      rw [split_loop_meta_miss n _ _ _ _ _ _ ?_]
      · unfold set_meta
        rw [if_pos rfl]
      · intro j' hj1 hj2 heq
        have : 2 ^ (cr - 1 - 1) = 2 ^ (j' - 1) := by omega
        have := Nat.pow_right_injective (by omega) this
        omega
    · exact ih _ _ _ _ _ j h1 h2 (by omega) (by omega)

/-- Full characterization of a successful `alloc_pages` call: the scanned
rank `R`, the popped head `b`, the returned address, and the resulting lists
and metadata. -/
theorem alloc_pages_ok_spec (s : BuddyState) (rank : Int) (a : Nat)
    (s' : BuddyState) (h : alloc_pages s rank = (Except.ok a, s')) :
    ∃ R b rest,
      1 ≤ rank ∧ rank ≤ (MAX_RANK : Int) ∧ 1 ≤ rank.toNat ∧
      rank.toNat ≤ R ∧ R ≤ MAX_RANK ∧
      s.free_lists R = b :: rest ∧
      (∀ k, rank.toNat ≤ k → k < R → s.free_lists k = []) ∧
      a = get_page_addr s b ∧
      s'.base_addr = s.base_addr ∧
      s'.total_pages = s.total_pages ∧
      (∀ j, s'.free_lists j =
        if j = R then rest
        else if rank.toNat ≤ j ∧ j < R then (b + 2 ^ (j - 1)) :: s.free_lists j
        else s.free_lists j) ∧
      s'.page_metadata b = ⟨rank.toNat, false⟩ ∧
      (∀ j, rank.toNat ≤ j → j < R → s'.page_metadata (b + 2 ^ (j - 1)) = ⟨j, true⟩) ∧
      (∀ q, q ≠ b → (∀ j, rank.toNat ≤ j → j < R → q ≠ b + 2 ^ (j - 1)) →
        s'.page_metadata q = s.page_metadata q) := by
  by_cases h1 : rank < 1 ∨ (MAX_RANK : Int) < rank
  · simp [alloc_pages, h1] at h
  · set R := find_free_rank s.free_lists (MAX_RANK + 1) rank.toNat with hR
    by_cases h2 : MAX_RANK < R
    · simp [alloc_pages, h1, ← hR, h2] at h
    · cases hm : s.free_lists R with
      | nil => simp [alloc_pages, h1, ← hR, h2, hm] at h
      | cons b rest =>
        have hrk1 : 1 ≤ rank.toNat := by omega
        have hspec := find_free_rank_spec s.free_lists (MAX_RANK + 1) rank.toNat
          (by omega)
        rw [← hR] at hspec
        simp only [alloc_pages, if_neg h1, ← hR, if_neg h2, hm] at h
        obtain ⟨ha, hs'⟩ := Prod.mk.injEq .. |>.mp h
        have ha' : a = get_page_addr s b := by
          cases ha; rfl
        have hmiss_b : ∀ j, rank.toNat ≤ j → j < R → b ≠ b + 2 ^ (j - 1) := by
          intro j hj1 hj2
          have : 0 < 2 ^ (j - 1) := Nat.two_pow_pos _
          omega
        refine ⟨R, b, rest, by omega, by omega, hrk1, hspec.1, by omega, hm,
          hspec.2.1, ha', ?_, ?_, ?_, ?_, ?_, ?_⟩
        · rw [← hs']
        · rw [← hs']
        · intro j
          rw [← hs']
          simp only []
          rw [split_loop_list MAX_RANK _ _ _ _ _ (by omega) j]
          by_cases hjR : j = R
          · subst hjR
            simp
          · by_cases hj2 : rank.toNat ≤ j ∧ j < R
            · rw [if_pos hj2, if_neg hjR, if_pos hj2, if_neg hjR]
            · rw [if_neg hj2, if_neg hjR, if_neg hj2, if_neg hjR]
        · rw [← hs']
          simp only []
          unfold set_meta
          rw [if_pos rfl]
          rw [split_loop_meta_miss MAX_RANK _ _ _ _ _ _ hmiss_b]
          rw [if_pos rfl]
        · intro j hj1 hj2
          rw [← hs']
          simp only []
          unfold set_meta
          rw [if_neg (by have : 0 < 2 ^ (j - 1) := Nat.two_pow_pos _; omega)]
          exact split_loop_meta_hit MAX_RANK _ _ _ _ _ j hrk1 hj1 hj2 (by omega)
        · intro q hqb hqsplit
          rw [← hs']
          simp only []
          unfold set_meta
          rw [if_neg hqb]
          rw [split_loop_meta_miss MAX_RANK _ _ _ _ _ _ hqsplit]
          rw [if_neg hqb]

/-- Alignment at a rank persists at lower ranks. -/
theorem pow_mod_zero_mono {b i j : Nat} (h : b % 2 ^ j = 0) (hij : i ≤ j) :
    b % 2 ^ i = 0 :=
  Nat.mod_eq_zero_of_dvd
    ((Nat.pow_dvd_pow 2 hij).trans (Nat.dvd_of_mod_eq_zero h))

/-- The pristine state satisfies the robust invariant. -/
theorem rinv_initial : RInv initial_state := by
  refine ⟨Or.inr rfl, rfl, fun r _ => rfl, ?_, ?_, ?_, ?_⟩
  · intro r _ _ p hp
    simp [initial_state] at hp
  · intro q hq
    simp [initial_state] at hq
  · intro q hq
    simp [initial_state] at hq
  · intro r _ _ m0 hm0
    simp [initial_state] at hm0

/-- `alloc_pages` preserves the robust invariant, whatever its argument. -/
theorem rinv_alloc (s : BuddyState) (rank : Int) (h : RInv s) :
    RInv (alloc_pages s rank).2 := by
  rcases hres : alloc_pages s rank with ⟨r1, s'⟩
  rcases r1 with e | a
  · have h2 := alloc_pages_error_state s rank e (by rw [hres])
    rw [hres] at h2
    have h3 : s' = s := h2
    show RInv s'
    rw [h3]
    exact h
  · show RInv s'
    obtain ⟨R, b, rest, hr1, hr2, hrk1, hrkR, hR16, hm, hempty, ha, hbase, htot,
      hlist, hmb, hmhit, hmmiss⟩ := alloc_pages_ok_spec s rank a s' hres
    have hbmem : b ∈ s.free_lists R := by
      rw [hm]; exact List.mem_cons_self b rest
    have hR1 : 1 ≤ R := le_trans hrk1 hrkR
    obtain ⟨hba, hbf⟩ := h.mem R hR1 hR16 b hbmem
    have hrkR16 : rank.toNat ≤ MAX_RANK := le_trans hrkR hR16
    have hpow_le : ∀ j, rank.toNat ≤ j → j < R →
        2 ^ (j - 1) + 2 ^ (j - 1) ≤ 2 ^ (R - 1) := by
      intro j h1 h2
      have hj : 1 ≤ j := le_trans hrk1 h1
      calc 2 ^ (j - 1) + 2 ^ (j - 1) = 2 ^ (j - 1) * 2 := by ring
        _ = 2 ^ (j - 1 + 1) := (pow_succ 2 (j - 1)).symm
        _ ≤ 2 ^ (R - 1) := Nat.pow_le_pow_right (by omega) (by omega)
    have hsplit_align : ∀ j, rank.toNat ≤ j → j < R →
        (b + 2 ^ (j - 1)) % 2 ^ (j - 1) = 0 := by
      intro j h1 h2
      have hbj : b % 2 ^ (j - 1) = 0 := pow_mod_zero_mono hba (by omega)
      simp [Nat.add_mod, hbj]
    have hsplit_fit : ∀ j, rank.toNat ≤ j → j < R →
        b + 2 ^ (j - 1) + 2 ^ (j - 1) ≤ s.total_pages := by
      intro j h1 h2
      have := hpow_le j h1 h2
      omega
    have hsplit_buddy : ∀ j, rank.toNat ≤ j → j < R →
        get_buddy_index (b + 2 ^ (j - 1)) j = b := by
      intro j h1 h2
      have hj1 : 1 ≤ j := le_trans hrk1 h1
      have hbj : b % 2 ^ j = 0 := pow_mod_zero_mono hba (by omega)
      have hbj' : b % 2 ^ (j - 1 + 1) = 0 := by
        have he : j - 1 + 1 = j := by omega
        rw [he]; exact hbj
      have hlt : (2 : Nat) ^ (j - 1) < 2 ^ (j - 1 + 1) :=
        Nat.pow_lt_pow_succ (by omega)
      have hmod : (b + 2 ^ (j - 1)) % 2 ^ (j - 1 + 1) = 2 ^ (j - 1) := by
        simp [Nat.add_mod, hbj', Nat.mod_eq_of_lt hlt]
      unfold get_buddy_index
      rw [aligned_xor_sub hmod]
      omega
    refine ⟨?_, ?_, ?_, ?_, ?_, ?_, ?_⟩
    · rw [hbase, htot]; exact h.base
    · rw [hlist 0, if_neg (by omega), if_neg (by omega)]; exact h.lists0
    · intro r hr
      rw [hlist r, if_neg (by omega), if_neg (by omega)]
      exact h.listsHi r hr
    · intro r h1 h2 p hp
      rw [htot]
      rw [hlist r] at hp
      by_cases hrR : r = R
      · subst hrR
        rw [if_pos rfl] at hp
        exact h.mem r h1 h2 p (by rw [hm]; exact List.mem_cons_of_mem b hp)
      · rw [if_neg hrR] at hp
        by_cases hr2 : rank.toNat ≤ r ∧ r < R
        · rw [if_pos hr2] at hp
          rcases List.mem_cons.mp hp with h3 | h3
          · subst h3
            exact ⟨hsplit_align r hr2.1 hr2.2, hsplit_fit r hr2.1 hr2.2⟩
          · exact h.mem r h1 h2 p h3
        · rw [if_neg hr2] at hp
          exact h.mem r h1 h2 p hp
    · intro q hq
      rw [htot] at hq
      by_cases hqb : q = b
      · subst hqb
        rw [hmb, htot]
        dsimp only
        right
        refine ⟨hrk1, hrkR16, pow_mod_zero_mono hba (by omega), ?_⟩
        have : (2 : Nat) ^ (rank.toNat - 1) ≤ 2 ^ (R - 1) :=
          Nat.pow_le_pow_right (by omega) (by omega)
        omega
      · by_cases hqs : ∃ j, rank.toNat ≤ j ∧ j < R ∧ q = b + 2 ^ (j - 1)
        · obtain ⟨j, hj1, hj2, hjq⟩ := hqs
          subst hjq
          rw [hmhit j hj1 hj2, htot]
          dsimp only
          right
          exact ⟨le_trans hrk1 hj1, by omega, hsplit_align j hj1 hj2,
            hsplit_fit j hj1 hj2⟩
        · push_neg at hqs
          rw [hmmiss q hqb (fun j a b2 => hqs j a b2), htot]
          exact h.meta q hq
    · intro q hq hfree
      rw [htot] at hq
      by_cases hqb : q = b
      · subst hqb
        rw [hmb] at hfree
        simp at hfree
      · by_cases hqs : ∃ j, rank.toNat ≤ j ∧ j < R ∧ q = b + 2 ^ (j - 1)
        · obtain ⟨j, hj1, hj2, hjq⟩ := hqs
          subst hjq
          rw [hmhit j hj1 hj2]
          rw [hlist j, if_neg (by omega), if_pos ⟨hj1, hj2⟩]
          exact List.mem_cons_self _ _
        · push_neg at hqs
          have hmq := hmmiss q hqb (fun j a b2 => hqs j a b2)
          rw [hmq] at hfree ⊢
          have hold := h.freeIn q hq hfree
          rw [hlist ((s.page_metadata q).rank)]
          by_cases hρR : (s.page_metadata q).rank = R
          · rw [if_pos hρR]
            rw [hρR, hm] at hold
            rcases List.mem_cons.mp hold with h3 | h3
            · exact absurd h3 hqb
            · exact h3
          · rw [if_neg hρR]
            by_cases hρ2 : rank.toNat ≤ (s.page_metadata q).rank ∧
                (s.page_metadata q).rank < R
            · rw [hempty _ hρ2.1 hρ2.2] at hold
              simp at hold
            · rw [if_neg hρ2]
              exact hold
    · intro r h1 h2 m0 hm0 hbud hbmeta
      rw [htot] at hbud
      rw [hlist r] at hm0
      rw [hlist r]
      set β := get_buddy_index m0 r with hβ
      by_cases hβb : β = b
      · rw [hβb, hmb] at hbmeta
        simp at hbmeta
      · by_cases hβs : ∃ j, rank.toNat ≤ j ∧ j < R ∧ β = b + 2 ^ (j - 1)
        · obtain ⟨j, hj1, hj2, hjq⟩ := hβs
          rw [hjq, hmhit j hj1 hj2] at hbmeta
          have hjr : j = r := by
            have := congrArg page_meta_t.rank hbmeta
            simpa using this
          subst hjr
          rw [if_neg (by omega), if_pos ⟨hj1, hj2⟩] at hm0
          rcases List.mem_cons.mp hm0 with h3 | h3
          · subst h3
            rw [hsplit_buddy j hj1 hj2] at hβ
            exact absurd hβ hβb
          · rw [hempty j hj1 hj2] at h3
            simp at h3
        · push_neg at hβs
          have hmq : s'.page_metadata β = s.page_metadata β :=
            hmmiss β hβb (fun j a b2 => hβs j a b2)
          rw [hmq] at hbmeta
          by_cases hrR : r = R
          · subst hrR
            rw [if_pos rfl] at hm0 ⊢
            have hold := h.ob r h1 h2 m0
              (by rw [hm]; exact List.mem_cons_of_mem b hm0) hbud hbmeta
            rw [hm] at hold
            by_cases hm0b : m0 = b
            · rw [hm0b] at hold
              rw [List.takeWhile_cons_of_neg (by simp)] at hold
              simp at hold
            · rw [List.takeWhile_cons_of_pos
                (by simpa using Ne.symm hm0b)] at hold
              rcases List.mem_cons.mp hold with h3 | h3
              · exact absurd h3 hβb
              · exact h3
          · rw [if_neg hrR] at hm0 ⊢
            by_cases hr2 : rank.toNat ≤ r ∧ r < R
            · rw [if_pos hr2] at hm0 ⊢
              rcases List.mem_cons.mp hm0 with h3 | h3
              · subst h3
                rw [hsplit_buddy r hr2.1 hr2.2] at hβ
                exact absurd hβ hβb
              · rw [hempty r hr2.1 hr2.2] at h3
                simp at h3
            · rw [if_neg hr2] at hm0 ⊢
              exact h.ob r h1 h2 m0 hm0 hbud hbmeta

/-- What a successful `get_page_index` tells us about the address. -/
theorem get_page_index_some {s : BuddyState} {p pi : Nat}
    (h : get_page_index s p = some pi) :
    pi < s.total_pages ∧ p = s.base_addr + pi * PAGE_SIZE := by
  simp only [get_page_index] at h
  by_cases h1 : p < s.base_addr
  · rw [if_pos h1] at h; exact absurd h (by simp)
  · rw [if_neg h1] at h
    by_cases h2 : (p - s.base_addr) % PAGE_SIZE ≠ 0
    · rw [if_pos h2] at h; exact absurd h (by simp)
    · rw [if_neg h2] at h
      by_cases h3 : s.total_pages ≤ (p - s.base_addr) / PAGE_SIZE
      · rw [if_pos h3] at h; exact absurd h (by simp)
      · rw [if_neg h3] at h
        push_neg at h2 h3
        cases h
        have hd := Nat.div_add_mod (p - s.base_addr) PAGE_SIZE
        refine ⟨h3, ?_⟩
        simp only [PAGE_SIZE] at h1 h2 hd ⊢
        omega

/-- Reading the point just written. -/
theorem set_meta_same (m : Nat → page_meta_t) (i : Nat) (v : page_meta_t) :
    set_meta m i v i = v := by
  unfold set_meta; rw [if_pos rfl]

/-- Reading another point. -/
theorem set_meta_other (m : Nat → page_meta_t) (i : Nat) (v : page_meta_t)
    (j : Nat) (h : j ≠ i) : set_meta m i v j = m j := by
  unfold set_meta; rw [if_neg h]

/-- The pushed list. -/
theorem push_front_same (ls : Nat → List Nat) (r idx : Nat) :
    push_front ls r idx r = idx :: ls r := by
  unfold push_front; rw [if_pos rfl]

/-- The other lists after a push. -/
theorem push_front_other (ls : Nat → List Nat) (r idx k : Nat) (h : k ≠ r) :
    push_front ls r idx k = ls k := by
  unfold push_front; rw [if_neg h]

/-- The spliced list. -/
theorem remove_from_free_list_same (ls : Nat → List Nat) (r idx : Nat) :
    remove_from_free_list ls r idx r = (ls r).erase idx := by
  unfold remove_from_free_list; rw [if_pos rfl]

/-- The other lists after a splice. -/
theorem remove_from_free_list_other (ls : Nat → List Nat) (r idx k : Nat)
    (h : k ≠ r) : remove_from_free_list ls r idx k = ls k := by
  unfold remove_from_free_list; rw [if_neg h]

/-- Pushing a floating block `(p, r)` — rank-aligned, fitting, not marked
free, with no `⟨r, true⟩` in-range buddy — preserves the robust invariant.
This is the exit situation of the `return_pages` merge loop. -/
theorem final_push_rinv (ls : Nat → List Nat) (m : Nat → page_meta_t)
    (base total p r : Nat)
    (hinv : RInv ⟨ls, base, total, m⟩) (h1 : 1 ≤ r) (h2 : r ≤ MAX_RANK)
    (ha : p % 2 ^ (r - 1) = 0) (hf : p + 2 ^ (r - 1) ≤ total)
    (hnf : (m p).is_free = false)
    (hbreak : r < MAX_RANK → get_buddy_index p r < total →
      m (get_buddy_index p r) ≠ ⟨r, true⟩) :
    RInv ⟨push_front ls r p, base, total, set_meta m p ⟨r, true⟩⟩ := by
  refine ⟨hinv.base, ?_, ?_, ?_, ?_, ?_, ?_⟩
  · show push_front ls r p 0 = []
    rw [push_front_other ls r p 0 (by omega)]
    exact hinv.lists0
  · intro r' hr'
    show push_front ls r p r' = []
    rw [push_front_other ls r p r' (by omega)]
    exact hinv.listsHi r' hr'
  · intro r' h1' h2' q hq
    show q % 2 ^ (r' - 1) = 0 ∧ q + 2 ^ (r' - 1) ≤ total
    replace hq : q ∈ push_front ls r p r' := hq
    by_cases hr' : r' = r
    · subst hr'
      rw [push_front_same] at hq
      rcases List.mem_cons.mp hq with h3 | h3
      · subst h3; exact ⟨ha, hf⟩
      · exact hinv.mem r' h1' h2' q h3
    · rw [push_front_other ls r p r' hr'] at hq
      exact hinv.mem r' h1' h2' q hq
  · intro q hq
    dsimp only at hq ⊢
    by_cases hqp : q = p
    · subst hqp
      rw [set_meta_same]
      right
      exact ⟨h1, h2, ha, hf⟩
    · rw [set_meta_other m p _ q hqp]
      exact hinv.meta q hq
  · intro q hq hfree
    replace hfree : (set_meta m p ⟨r, true⟩ q).is_free = true := hfree
    show q ∈ push_front ls r p ((set_meta m p ⟨r, true⟩ q).rank)
    by_cases hqp : q = p
    · subst hqp
      rw [set_meta_same]
      show q ∈ push_front ls r q r
      rw [push_front_same]
      exact List.mem_cons_self _ _
    · rw [set_meta_other m p _ q hqp] at hfree ⊢
      have hold := hinv.freeIn q hq hfree
      by_cases hρ : (m q).rank = r
      · rw [hρ] at hold ⊢
        rw [push_front_same]
        exact List.mem_cons_of_mem _ hold
      · rw [push_front_other ls r p _ hρ]
        exact hold
  · intro r' h1' h2' m0 hm0 hbud hbmeta
    replace hm0 : m0 ∈ push_front ls r p r' := hm0
    replace hbmeta : set_meta m p ⟨r, true⟩ (get_buddy_index m0 r') = ⟨r', true⟩ :=
      hbmeta
    show get_buddy_index m0 r' ∈ (push_front ls r p r').takeWhile
      (fun x => x ≠ m0)
    by_cases hβp : get_buddy_index m0 r' = p
    · rw [hβp, set_meta_same] at hbmeta
      have hrr : r = r' := by
        have := congrArg page_meta_t.rank hbmeta
        simpa using this
      subst hrr
      rw [push_front_same] at hm0 ⊢
      by_cases hm0p : m0 = p
      · subst hm0p
        exact absurd hβp (buddy_ne m0 (r - 1))
      · rw [List.takeWhile_cons_of_pos (by simpa using Ne.symm hm0p)]
        rw [hβp]
        exact List.mem_cons_self _ _
    · rw [set_meta_other m p _ _ hβp] at hbmeta
      by_cases hr' : r' = r
      · subst hr'
        rw [push_front_same] at hm0 ⊢
        by_cases hm0p : m0 = p
        · subst hm0p
          exact absurd hbmeta (hbreak h2' hbud)
        · rcases List.mem_cons.mp hm0 with h3 | h3
          · exact absurd h3 hm0p
          · rw [List.takeWhile_cons_of_pos (by simpa using Ne.symm hm0p)]
            exact List.mem_cons_of_mem _
              (hinv.ob r' h1' h2' m0 h3 hbud hbmeta)
      · rw [push_front_other ls r p r' hr'] at hm0 ⊢
        exact hinv.ob r' h1' h2' m0 hm0 hbud hbmeta

/-- The merge loop of `return_pages`, started on a floating block that is
rank-aligned, fitting and not marked free, ends in a state (after the final
push and metadata write) that satisfies the robust invariant. -/
theorem merge_loop_rinv (base : Nat) (fuel : Nat) :
    ∀ (ls : Nat → List Nat) (m : Nat → page_meta_t) (total p r : Nat),
      RInv ⟨ls, base, total, m⟩ → 1 ≤ r → r ≤ MAX_RANK →
      p % 2 ^ (r - 1) = 0 → p + 2 ^ (r - 1) ≤ total →
      (m p).is_free = false → MAX_RANK - r ≤ fuel →
      RInv ⟨push_front (merge_loop fuel ls m total p r).1
          (merge_loop fuel ls m total p r).2.2.2
          (merge_loop fuel ls m total p r).2.2.1, base, total,
        set_meta (merge_loop fuel ls m total p r).2.1
          (merge_loop fuel ls m total p r).2.2.1
          ⟨(merge_loop fuel ls m total p r).2.2.2, true⟩⟩ := by
  induction fuel with
  | zero =>
    intro ls m total p r hinv h1 h2 ha hf hnf hfuel
    simp only [merge_loop]
    exact final_push_rinv ls m base total p r hinv h1 h2 ha hf hnf
      (fun hlt _ => absurd hlt (by omega))
  | succ n ih =>
    intro ls m total p r hinv h1 h2 ha hf hnf hfuel
    simp only [merge_loop]
    by_cases hr16 : r < MAX_RANK
    · rw [if_pos hr16]
      by_cases hout : total ≤ get_buddy_index p r
      · rw [if_pos hout]
        exact final_push_rinv ls m base total p r hinv h1 h2 ha hf hnf
          (fun _ hbud => absurd hbud (by omega))
      · rw [if_neg hout]
        by_cases hmm : (m (get_buddy_index p r)).is_free = false ∨
            (m (get_buddy_index p r)).rank ≠ r
        · rw [if_pos hmm]
          refine final_push_rinv ls m base total p r hinv h1 h2 ha hf hnf
            (fun _ _ heq => ?_)
          rcases hmm with hc | hc <;> rw [heq] at hc <;> simp at hc
        · rw [if_neg hmm]
          push_neg at hmm
          obtain ⟨hβf, hβr⟩ := hmm
          replace hβf : (m (get_buddy_index p r)).is_free = true := by
            cases hb : (m (get_buddy_index p r)).is_free with
            | false => exact absurd hb hβf
            | true => rfl
          push_neg at hout
          have hβne : get_buddy_index p r ≠ p := buddy_ne p (r - 1)
          have hβmem : get_buddy_index p r ∈ ls r := by
            have := hinv.freeIn _ hout hβf
            rwa [hβr] at this
          have hrm : r - 1 + 1 = r := by omega
          have hβW := (hinv.meta _ hout).resolve_left (by rw [hβr]; omega)
          rw [hβr] at hβW
          have hpow : (2 : Nat) ^ r = 2 ^ (r - 1) + 2 ^ (r - 1) := by
            conv_lhs => rw [← hrm]
            rw [pow_succ]
            ring
          set β := get_buddy_index p r with hβdef
          have hβx : β = p ^^^ 2 ^ (r - 1) := hβdef
          have hinv' : RInv ⟨remove_from_free_list ls r β, base, total,
              set_meta m β ⟨(m β).rank, false⟩⟩ := by
            refine ⟨hinv.base, ?_, ?_, ?_, ?_, ?_, ?_⟩
            · show remove_from_free_list ls r β 0 = []
              rw [remove_from_free_list_other ls r β 0 (by omega)]
              exact hinv.lists0
            · intro r' hr'
              show remove_from_free_list ls r β r' = []
              rw [remove_from_free_list_other ls r β r' (by omega)]
              exact hinv.listsHi r' hr'
            · intro r' h1' h2' q hq
              replace hq : q ∈ remove_from_free_list ls r β r' := hq
              show q % 2 ^ (r' - 1) = 0 ∧ q + 2 ^ (r' - 1) ≤ total
              by_cases hr' : r' = r
              · subst hr'
                rw [remove_from_free_list_same] at hq
                exact hinv.mem r' h1' h2' q (List.mem_of_mem_erase hq)
              · rw [remove_from_free_list_other ls r β r' hr'] at hq
                exact hinv.mem r' h1' h2' q hq
            · intro q hq
              dsimp only at hq ⊢
              by_cases hqβ : q = β
              · rw [hqβ, set_meta_same]
                rw [hqβ] at hq
                exact hinv.meta β hq
              · rw [set_meta_other m β _ q hqβ]
                exact hinv.meta q hq
            · intro q hq hfree
              replace hfree :
                  (set_meta m β ⟨(m β).rank, false⟩ q).is_free = true := hfree
              show q ∈ remove_from_free_list ls r β
                ((set_meta m β ⟨(m β).rank, false⟩ q).rank)
              by_cases hqβ : q = β
              · subst hqβ
                rw [set_meta_same] at hfree
                simp at hfree
              · rw [set_meta_other m β _ q hqβ] at hfree ⊢
                have hold := hinv.freeIn q hq hfree
                by_cases hρ : (m q).rank = r
                · rw [hρ] at hold ⊢
                  rw [remove_from_free_list_same]
                  exact (List.mem_erase_of_ne hqβ).mpr hold
                · rw [remove_from_free_list_other ls r β _ hρ]
                  exact hold
            · intro r' h1' h2' m0 hm0 hbud2 hbmeta2
              replace hm0 : m0 ∈ remove_from_free_list ls r β r' := hm0
              replace hbmeta2 : set_meta m β ⟨(m β).rank, false⟩
                (get_buddy_index m0 r') = ⟨r', true⟩ := hbmeta2
              show get_buddy_index m0 r' ∈
                (remove_from_free_list ls r β r').takeWhile (fun x => x ≠ m0)
              by_cases hqβ : get_buddy_index m0 r' = β
              · rw [hqβ, set_meta_same] at hbmeta2
                simp at hbmeta2
              · rw [set_meta_other m β _ _ hqβ] at hbmeta2
                by_cases hr' : r' = r
                · subst hr'
                  rw [remove_from_free_list_same] at hm0 ⊢
                  exact mem_takeWhile_erase
                    (hinv.ob r' h1' h2' m0 (List.mem_of_mem_erase hm0)
                      hbud2 hbmeta2) hqβ
                · rw [remove_from_free_list_other ls r β r' hr'] at hm0 ⊢
                  exact hinv.ob r' h1' h2' m0 hm0 hbud2 hbmeta2
          rcases buddy_cases ha with ⟨hc0, hcx⟩ | ⟨hc0, hcle, hcx, hcz⟩
          · rw [hrm] at hc0
            have hβval : β = p + 2 ^ (r - 1) := by rw [hβx, hcx]
            have hmin : min p β = p := by omega
            refine ?_
            rw [hmin]
            have halign : p % 2 ^ (r + 1 - 1) = 0 := by
              show p % 2 ^ r = 0
              exact hc0
            have hfit : p + 2 ^ (r + 1 - 1) ≤ total := by
              show p + 2 ^ r ≤ total
              have hβfit : β + 2 ^ (r - 1) ≤ total := hβW.2.2.2
              omega
            have hnf' : (set_meta m β ⟨(m β).rank, false⟩ p).is_free = false := by
              rw [set_meta_other m β _ p (by omega)]
              exact hnf
            exact ih _ _ total p (r + 1) hinv' (by omega) (by omega)
              halign hfit hnf' (by omega)
          · rw [hrm] at hc0
            rw [hrm] at hcz
            have hβval : β = p - 2 ^ (r - 1) := by rw [hβx, hcx]
            have hpos : (0 : Nat) < 2 ^ (r - 1) := Nat.two_pow_pos _
            have hmin : min p β = β := by omega
            refine ?_
            rw [hmin]
            have halign : β % 2 ^ (r + 1 - 1) = 0 := by
              show β % 2 ^ r = 0
              rw [hβval]
              exact hcz
            have hfit : β + 2 ^ (r + 1 - 1) ≤ total := by
              show β + 2 ^ r ≤ total
              omega
            have hnf' : (set_meta m β ⟨(m β).rank, false⟩ β).is_free = false := by
              rw [set_meta_same]
            exact ih _ _ total β (r + 1) hinv' (by omega) (by omega)
              halign hfit hnf' (by omega)
    · rw [if_neg hr16]
      exact final_push_rinv ls m base total p r hinv h1 h2 ha hf hnf
        (fun hlt _ => absurd hlt hr16)

/-- `return_pages` preserves the robust invariant, whatever its argument. -/
theorem rinv_release (s : BuddyState) (p : Nat) (h : RInv s) :
    RInv (return_pages s p).2 := by
  by_cases h0 : p = 0
  · simp only [return_pages, if_pos h0]
    exact h
  · cases hg : get_page_index s p with
    | none =>
      simp only [return_pages, if_neg h0, hg]
      exact h
    | some pi =>
      by_cases hv : (s.page_metadata pi).rank = 0 ∨
          (s.page_metadata pi).is_free = true
      · simp only [return_pages, if_neg h0, hg, if_pos hv]
        exact h
      · have hpi : pi < s.total_pages := (get_page_index_some hg).1
        have hr0 : (s.page_metadata pi).rank ≠ 0 := fun hh => hv (Or.inl hh)
        have hnf : (s.page_metadata pi).is_free = false := by
          cases hb : (s.page_metadata pi).is_free with
          | false => rfl
          | true => exact absurd (Or.inr hb) hv
        have hW := (h.meta pi hpi).resolve_left hr0
        obtain ⟨hr1, hr2, hal, hfit⟩ := hW
        have hres := merge_loop_rinv s.base_addr MAX_RANK s.free_lists
          s.page_metadata s.total_pages pi ((s.page_metadata pi).rank)
          h hr1 hr2 hal hfit hnf (by omega)
        simp only [return_pages, if_neg h0, hg, if_neg hv]
        exact hres

/-- Characterization of the inner rank search of `init_page`: a positive
result is a rank `≤ k` whose block fits and is aligned at `cur`, and every
larger rank up to `k` fails one of the two tests. -/
theorem find_init_rank_spec (total cur : Nat) (k : Nat) :
    (1 ≤ find_init_rank total cur k →
      find_init_rank total cur k ≤ k ∧
      cur + 2 ^ (find_init_rank total cur k - 1) ≤ total ∧
      cur % 2 ^ (find_init_rank total cur k - 1) = 0) ∧
    (∀ j, find_init_rank total cur k < j → j ≤ k →
      total < cur + 2 ^ (j - 1) ∨ ¬ cur % 2 ^ (j - 1) = 0) := by
  induction k with
  | zero =>
    constructor
    · intro h1
      exact absurd h1 (by unfold find_init_rank; omega)
    · intro j hj1 hj2
      omega
  | succ n ih =>
    unfold find_init_rank
    by_cases hc : total < cur + 2 ^ n ∨ is_aligned cur (n + 1) = false
    · rw [if_pos hc]
      constructor
      · intro h1
        exact ⟨le_trans (ih.1 h1).1 (by omega), (ih.1 h1).2.1, (ih.1 h1).2.2⟩
      · intro j hj1 hj2
        by_cases hjn : j = n + 1
        · subst hjn
          rcases hc with hc | hc
          · exact Or.inl hc
          · right
            intro hmod
            simp [is_aligned] at hc
            exact hc hmod
        · exact ih.2 j hj1 (by omega)
    · rw [if_neg hc]
      push_neg at hc
      obtain ⟨hfit, hal⟩ := hc
      have hal' : cur % 2 ^ n = 0 := by
        cases hb : is_aligned cur (n + 1) with
        | false => exact absurd hb hal
        | true => simpa [is_aligned] using hb
      constructor
      · intro _
        exact ⟨le_refl _, by simpa using hfit, hal'⟩
      · intro j hj1 hj2
        omega

/-- When the walk has pages left, the inner search yields a positive rank
(rank 1 always fits and is aligned). -/
theorem find_init_rank_pos (total cur : Nat) (hcur : cur < total) :
    ∀ k, 1 ≤ k → 1 ≤ find_init_rank total cur k := by
  intro k
  induction k with
  | zero => omega
  | succ n ih =>
    intro _
    unfold find_init_rank
    by_cases hc : total < cur + 2 ^ n ∨ is_aligned cur (n + 1) = false
    · rw [if_pos hc]
      rcases Nat.eq_zero_or_pos n with hn | hn
      · subst hn
        exfalso
        rcases hc with hc | hc
        · omega
        · simp [is_aligned] at hc
          exact hc (Nat.mod_one cur)
      · exact ih hn
    · rw [if_neg hc]
      omega

/-- The `init_page` walk preserves `InitInv`, given that existing blocks end
by `cur` and the metadata at and beyond `cur` is still cleared. -/
theorem init_loop_inv (total : Nat) :
    ∀ (fuel : Nat) (ls : Nat → List Nat) (m : Nat → page_meta_t) (cur : Nat),
      InitInv total ls m →
      (∀ r, ∀ q ∈ ls r, q + 1 ≤ cur) →
      (∀ q, cur ≤ q → q < total → m q = ⟨0, false⟩) →
      cur ≤ total →
      total - cur ≤ fuel →
      InitInv total (init_loop fuel ls m total cur).1
        (init_loop fuel ls m total cur).2 := by
  intro fuel
  induction fuel with
  | zero =>
    intro ls m cur hI hend hclear hle hfuel
    simpa only [init_loop] using hI
  | succ n ih =>
    intro ls m cur hI hend hclear hle hfuel
    simp only [init_loop]
    by_cases hcur : cur < total
    · rw [if_pos hcur]
      have hrk1 : 1 ≤ find_init_rank total cur MAX_RANK :=
        find_init_rank_pos total cur hcur MAX_RANK (by decide)
      rw [if_neg (by omega)]
      obtain ⟨hrk16, hrkfit, hrkal⟩ := (find_init_rank_spec total cur MAX_RANK).1 hrk1
      have hrkmax := (find_init_rank_spec total cur MAX_RANK).2
      set rk := find_init_rank total cur MAX_RANK with hrkdef
      have hblkpos : (0 : Nat) < 2 ^ (rk - 1) := Nat.two_pow_pos _
      refine ih (push_front ls rk cur) (set_meta m cur ⟨rk, true⟩)
        (cur + 2 ^ (rk - 1)) ⟨?_, ?_, ?_, ?_, ?_, ?_, ?_⟩ ?_ ?_ (by omega) (by omega)
      · rw [push_front_other ls rk cur 0 (by omega)]
        exact hI.lists0
      · intro r hr
        rw [push_front_other ls rk cur r (by omega)]
        exact hI.listsHi r hr
      · intro r h1 h2 q hq
        by_cases hr : r = rk
        · subst hr
          rw [push_front_same] at hq
          rcases List.mem_cons.mp hq with h3 | h3
          · subst h3
            exact ⟨hrkal, hrkfit⟩
          · exact hI.mem rk h1 h2 q h3
        · rw [push_front_other ls rk cur r hr] at hq
          exact hI.mem r h1 h2 q hq
      · intro q hq
        by_cases hqc : q = cur
        · subst hqc
          rw [set_meta_same]
          right
          exact ⟨hrk1, hrk16, hrkal, hrkfit⟩
        · rw [set_meta_other m cur _ q hqc]
          exact hI.meta q hq
      · intro q hq hfree
        by_cases hqc : q = cur
        · subst hqc
          rw [set_meta_same] at hfree ⊢
          rw [push_front_same]
          exact List.mem_cons_self _ _
        · rw [set_meta_other m cur _ q hqc] at hfree ⊢
          have hold := hI.freeIn q hq hfree
          by_cases hρ : (m q).rank = rk
          · rw [hρ] at hold ⊢
            rw [push_front_same]
            exact List.mem_cons_of_mem _ hold
          · rw [push_front_other ls rk cur _ hρ]
            exact hold
      · intro r q hq
        by_cases hr : r = rk
        · subst hr
          rw [push_front_same] at hq
          rcases List.mem_cons.mp hq with h3 | h3
          · subst h3
            rw [set_meta_same]
          · have := hend rk q h3
            rw [set_meta_other m cur _ q (by omega)]
            exact hI.coh rk q h3
        · rw [push_front_other ls rk cur r hr] at hq
          have := hend r q hq
          rw [set_meta_other m cur _ q (by omega)]
          exact hI.coh r q hq
      · intro r h1 h2 q hq
        by_cases hr : r = rk
        · subst hr
          rw [push_front_same] at hq
          rcases List.mem_cons.mp hq with h3 | h3
          · subst h3
            by_cases hr16 : rk = MAX_RANK
            · exact Or.inl hr16
            · right
              have := hrkmax (rk + 1) (by omega) (by omega)
              simpa using this
          · exact hI.maxi rk h1 h2 q h3
        · rw [push_front_other ls rk cur r hr] at hq
          exact hI.maxi r h1 h2 q hq
      · intro r q hq
        by_cases hr : r = rk
        · subst hr
          rw [push_front_same] at hq
          rcases List.mem_cons.mp hq with h3 | h3
          · omega
          · have := hend rk q h3
            omega
        · rw [push_front_other ls rk cur r hr] at hq
          have := hend r q hq
          omega
      · intro q hq1 hq2
        rw [set_meta_other m cur _ q (by omega)]
        exact hclear q (by omega) hq2
    · rw [if_neg hcur]
      exact hI

/-- Under `InitInv`, no list member has a free buddy of the same rank below
`MAX_RANK`: maximality of the greedy decomposition forbids it. -/
theorem initinv_nopair {total : Nat} {ls : Nat → List Nat} {m : Nat → page_meta_t}
    (hI : InitInv total ls m) (r q : Nat) (hr1 : 1 ≤ r) (hr16 : r < MAX_RANK)
    (hq : q ∈ ls r) (hb : get_buddy_index q r < total)
    (hmb : m (get_buddy_index q r) = ⟨r, true⟩) : False := by
  have he : r - 1 + 1 = r := by omega
  obtain ⟨hqal, hqfit⟩ := hI.mem r hr1 (by omega) q hq
  have hbin : get_buddy_index q r ∈ ls r := by
    have hfree : (m (get_buddy_index q r)).is_free = true := by rw [hmb]
    have h4 := hI.freeIn _ hb hfree
    rw [hmb] at h4
    exact h4
  obtain ⟨hbal, hbfit⟩ := hI.mem r hr1 (by omega) _ hbin
  have h2 : (2 : Nat) ^ r = 2 ^ (r - 1) + 2 ^ (r - 1) := by
    conv_lhs => rw [← he]
    rw [pow_succ]
    ring
  rcases buddy_cases hqal with ⟨hm2, hxa⟩ | ⟨hm2, hle, hxa, hm2b⟩
  · rcases hI.maxi r hr1 (by omega) q hq with h3 | h3 | h3
    · omega
    · simp only [get_buddy_index] at hbfit
      rw [hxa] at hbfit
      omega
    · rw [he] at hm2
      exact h3 hm2
  · rcases hI.maxi r hr1 (by omega) _ hbin with h3 | h3 | h3
    · omega
    · simp only [get_buddy_index] at h3
      rw [hxa] at h3
      omega
    · simp only [get_buddy_index] at h3
      rw [hxa] at h3
      rw [he] at hm2b
      exact h3 hm2b

/-- `init_page` establishes the robust invariant (for a nonzero base). -/
theorem rinv_init (s : BuddyState) (p pgcount : Nat) (hp : 0 < p) :
    RInv (init_page s p pgcount).2 := by
  have hI0 : InitInv pgcount (fun _ => ([] : List Nat))
      (fun i => if i < pgcount then (⟨0, false⟩ : page_meta_t)
                else s.page_metadata i) := by
    refine ⟨rfl, fun r _ => rfl, ?_, ?_, ?_, ?_, ?_⟩
    · intro r _ _ q hq
      simp at hq
    · intro q hq
      left
      simp [hq]
    · intro q hq hfree
      simp [hq] at hfree
    · intro r q hq
      simp at hq
    · intro r _ _ q hq
      simp at hq
  have hI := init_loop_inv pgcount pgcount (fun _ => [])
    (fun i => if i < pgcount then (⟨0, false⟩ : page_meta_t)
              else s.page_metadata i) 0 hI0
    (fun r q hq => absurd hq (by simp))
    (fun q _ hq2 => by simp [hq2])
    (Nat.zero_le _) (by omega)
  exact {
    base := Or.inl hp
    lists0 := hI.lists0
    listsHi := hI.listsHi
    mem := hI.mem
    meta := hI.meta
    freeIn := hI.freeIn
    ob := fun r hr1 hr16 q hq hb hmb =>
      (initinv_nopair hI r q hr1 hr16 hq hb hmb).elim
  }

/-- Every reachable state satisfies the robust invariant. -/
theorem reachable_rinv (s : BuddyState) (h : Reachable s) : RInv s := by
  induction h with
  | start => exact rinv_initial
  | init s hs p pgcount hp ha hn ih => exact rinv_init s p pgcount hp
  | alloc s hs rank ih => exact rinv_alloc s rank ih
  | release s hs p ih => exact rinv_release s p ih
  | qranks s hs p ih =>
    rw [query_ranks_state]
    exact ih
  | qcounts s hs rank ih =>
    rw [query_page_counts_state]
    exact ih

/-- After a successful allocation, the merge loop of `return_pages` retraces
the split chain exactly: each pushed right half is absorbed in rank order,
the loop stops at the original rank `R` (maximality, via the `ob` field of
the robust invariant), and the free lists return to their pre-allocation
shape except at rank `R`, where `rest` remains. -/
theorem merge_chain (s : BuddyState) (hinv : RInv s) (R b rk : Nat)
    (rest : List Nat) (hrk1 : 1 ≤ rk) (hR16 : R ≤ MAX_RANK)
    (hlist : s.free_lists R = b :: rest)
    (hal : b % 2 ^ (R - 1) = 0) (hfit : b + 2 ^ (R - 1) ≤ s.total_pages) :
    ∀ (fuel j : Nat) (ls : Nat → List Nat) (m : Nat → page_meta_t),
      rk ≤ j → j ≤ R → R ≤ j + fuel →
      (∀ i, ls i = if i = R then rest
        else if j ≤ i ∧ i < R then (b + 2 ^ (i - 1)) :: s.free_lists i
        else s.free_lists i) →
      (∀ i, j ≤ i → i < R → m (b + 2 ^ (i - 1)) = ⟨i, true⟩) →
      (∀ q, q ≠ b → (∀ i, rk ≤ i → i < R → q ≠ b + 2 ^ (i - 1)) →
        m q = s.page_metadata q) →
      (∀ i, (merge_loop fuel ls m s.total_pages b j).1 i =
        if i = R then rest else s.free_lists i) ∧
      (merge_loop fuel ls m s.total_pages b j).2.2.1 = b ∧
      (merge_loop fuel ls m s.total_pages b j).2.2.2 = R := by
  intro fuel
  induction fuel with
  | zero =>
    intro j ls m hj1 hj2 hj3 hls hhits hmiss
    have hRj : R = j := by omega
    subst hRj
    refine ⟨fun i => ?_, by simp only [merge_loop], by simp only [merge_loop]⟩
    simp only [merge_loop]
    rw [hls i]
    by_cases hiR : i = R
    · rw [if_pos hiR, if_pos hiR]
    · rw [if_neg hiR, if_neg hiR, if_neg (by omega)]
  | succ n ih =>
    intro j ls m hj1 hj2 hj3 hls hhits hmiss
    by_cases hjR : j = R
    · have hRj : R = j := hjR.symm
      subst hRj
      simp only [merge_loop]
      by_cases hR16' : R < MAX_RANK
      · rw [if_pos hR16']
        by_cases hout : s.total_pages ≤ get_buddy_index b R
        · rw [if_pos hout]
          refine ⟨?_, rfl, rfl⟩
          intro i
          dsimp only
          rw [hls i]
          by_cases hiR : i = R
          · rw [if_pos hiR, if_pos hiR]
          · rw [if_neg hiR, if_neg hiR, if_neg (by omega)]
        · rw [if_neg hout]
          have hbreak : (m (get_buddy_index b R)).is_free = false ∨
              (m (get_buddy_index b R)).rank ≠ R := by
            by_contra hcon
            push_neg at hcon
            obtain ⟨h5, h6⟩ := hcon
            have hfree : (m (get_buddy_index b R)).is_free = true := by
              cases hb2 : (m (get_buddy_index b R)).is_free with
              | false => exact absurd hb2 h5
              | true => rfl
            have hmc : m (get_buddy_index b R) = ⟨R, true⟩ := by
              cases hx : m (get_buddy_index b R) with
              | mk rnk fr =>
                rw [hx] at h6 hfree
                dsimp only at h6 hfree
                rw [h6, hfree]
            have hcb : get_buddy_index b R ≠ b := buddy_ne b (R - 1)
            have hchit : ∀ i, rk ≤ i → i < R →
                get_buddy_index b R ≠ b + 2 ^ (i - 1) := by
              intro i hi1 hi2
              have h01 : 0 < 2 ^ (i - 1) := Nat.two_pow_pos (i - 1)
              have h02 : 0 < 2 ^ (R - 1) := Nat.two_pow_pos (R - 1)
              rcases buddy_cases hal with ⟨_, hxa⟩ | ⟨_, hle2, hxa, _⟩
              · simp only [get_buddy_index]
                rw [hxa]
                intro heq
                have h7 : (2 : Nat) ^ (R - 1) = 2 ^ (i - 1) := by omega
                have h8 := Nat.pow_right_injective (le_refl 2) h7
                omega
              · simp only [get_buddy_index]
                rw [hxa]
                omega
            have hmc_s : s.page_metadata (get_buddy_index b R) = ⟨R, true⟩ := by
              rw [← hmiss (get_buddy_index b R) hcb hchit]
              exact hmc
            push_neg at hout
            have hob := hinv.ob R (by omega) hR16' b
              (by rw [hlist]; exact List.mem_cons_self b rest) hout hmc_s
            rw [hlist] at hob
            rw [List.takeWhile_cons_of_neg (by simp)] at hob
            simp at hob
          rw [if_pos hbreak]
          refine ⟨?_, rfl, rfl⟩
          intro i
          dsimp only
          rw [hls i]
          by_cases hiR : i = R
          · rw [if_pos hiR, if_pos hiR]
          · rw [if_neg hiR, if_neg hiR, if_neg (by omega)]
      · rw [if_neg hR16']
        refine ⟨?_, rfl, rfl⟩
        intro i
        dsimp only
        rw [hls i]
        by_cases hiR : i = R
        · rw [if_pos hiR, if_pos hiR]
        · rw [if_neg hiR, if_neg hiR, if_neg (by omega)]
    · have hjR' : j < R := by omega
      have hj1' : 1 ≤ j := by omega
      simp only [merge_loop]
      rw [if_pos (show j < MAX_RANK by omega)]
      have hceq : get_buddy_index b j = b + 2 ^ (j - 1) := by
        simp only [get_buddy_index]
        have hbj : b % 2 ^ (j - 1 + 1) = 0 := by
          rw [show j - 1 + 1 = j by omega]
          exact pow_mod_zero_mono hal (by omega)
        exact aligned_xor_add hbj
      have hpows : (2 : Nat) ^ (j - 1) < 2 ^ (R - 1) :=
        Nat.pow_lt_pow_right (by norm_num) (by omega)
      have hclt : get_buddy_index b j < s.total_pages := by
        rw [hceq]
        omega
      rw [if_neg (by omega)]
      have hmc : m (get_buddy_index b j) = ⟨j, true⟩ := by
        rw [hceq]
        exact hhits j (le_refl j) hjR'
      have hcond : ¬ ((m (get_buddy_index b j)).is_free = false ∨
          (m (get_buddy_index b j)).rank ≠ j) := by
        rw [hmc]
        simp
      rw [if_neg hcond]
      have hrnk : (m (get_buddy_index b j)).rank = j := by
        rw [hmc]
      have hmin : min b (get_buddy_index b j) = b := by
        rw [hceq]
        have : 0 < 2 ^ (j - 1) := Nat.two_pow_pos (j - 1)
        omega
      rw [hrnk, hmin]
      have hlsj : ls j = (b + 2 ^ (j - 1)) :: s.free_lists j := by
        rw [hls j, if_neg (by omega), if_pos ⟨le_refl j, hjR'⟩]
      have hls2 : ∀ i, remove_from_free_list ls j (get_buddy_index b j) i =
          if i = R then rest
          else if j + 1 ≤ i ∧ i < R then (b + 2 ^ (i - 1)) :: s.free_lists i
          else s.free_lists i := by
        intro i
        by_cases hij : i = j
        · subst hij
          rw [remove_from_free_list_same, hlsj, hceq, List.erase_cons_head,
            if_neg (by omega), if_neg (by omega)]
        · rw [remove_from_free_list_other ls j (get_buddy_index b j) i hij,
            hls i]
          by_cases hiR : i = R
          · rw [if_pos hiR, if_pos hiR]
          · rw [if_neg hiR, if_neg hiR]
            by_cases hmid : j + 1 ≤ i ∧ i < R
            · rw [if_pos (by omega), if_pos hmid]
            · rw [if_neg (by omega), if_neg hmid]
      have hhits2 : ∀ i, j + 1 ≤ i → i < R →
          set_meta m (get_buddy_index b j) ⟨j, false⟩ (b + 2 ^ (i - 1)) =
            ⟨i, true⟩ := by
        intro i hi1 hi2
        have hne : b + 2 ^ (i - 1) ≠ get_buddy_index b j := by
          rw [hceq]
          intro heq
          have h7 : (2 : Nat) ^ (i - 1) = 2 ^ (j - 1) := by omega
          have h8 := Nat.pow_right_injective (le_refl 2) h7
          omega
        rw [set_meta_other m (get_buddy_index b j) ⟨j, false⟩ _ hne]
        exact hhits i (by omega) hi2
      have hmiss2 : ∀ q, q ≠ b →
          (∀ i, rk ≤ i → i < R → q ≠ b + 2 ^ (i - 1)) →
          set_meta m (get_buddy_index b j) ⟨j, false⟩ q = s.page_metadata q := by
        intro q hqb hqhits
        have hne : q ≠ get_buddy_index b j := by
          rw [hceq]
          exact hqhits j hj1 hjR'
        rw [set_meta_other m (get_buddy_index b j) ⟨j, false⟩ q hne]
        exact hmiss q hqb hqhits
      exact ih (j + 1) (remove_from_free_list ls j (get_buddy_index b j))
        (set_meta m (get_buddy_index b j) ⟨j, false⟩)
        (by omega) (by omega) (by omega) hls2 hhits2 hmiss2

/-- C3 (round-trip): from any reachable state, if `alloc_pages(rank)` succeeds
with address `a`, an immediate `return_pages(a)` restores `query_page_counts`
at every valid rank to its pre-allocation value.  The merge loop absorbs
exactly the right halves the split pushed and stops at the original rank. -/
theorem C3_round_trip (s : BuddyState) (hs : Reachable s) (rank : Int) (a : Nat)
    (s' : BuddyState) (h : alloc_pages s rank = (Except.ok a, s')) :
    ∀ r : Int, 1 ≤ r → r ≤ (MAX_RANK : Int) →
      (query_page_counts (return_pages s' a).2 r).1 =
        (query_page_counts s r).1 := by
  have hinv := reachable_rinv s hs
  obtain ⟨R, b, rest, hr1, hr16i, hrk1, hrkR, hR16, hlist, hempt, ha, hbase,
    htot, hlists, hmb, hhits, hmiss⟩ := alloc_pages_ok_spec s rank a s' h
  have hbmem : b ∈ s.free_lists R := by
    rw [hlist]
    exact List.mem_cons_self b rest
  obtain ⟨hal, hfit⟩ := hinv.mem R (by omega) hR16 b hbmem
  have hpow : 0 < 2 ^ (R - 1) := Nat.two_pow_pos (R - 1)
  have hbase0 : 0 < s.base_addr := by
    rcases hinv.base with hb | hb
    · exact hb
    · omega
  have ha0 : ¬ a = 0 := by
    rw [ha]
    simp only [get_page_addr, PAGE_SIZE]
    omega
  have hblt : b < s.total_pages := by omega
  have hgpi : get_page_index s' a = some b := by
    rw [ha]
    have haddr : get_page_addr s b = s'.base_addr + b * PAGE_SIZE := by
      rw [hbase]
      rfl
    rw [haddr, get_page_index_addr s' b, if_neg (by omega)]
  have hcond : ¬ ((s'.page_metadata b).rank = 0 ∨
      (s'.page_metadata b).is_free = true) := by
    rw [hmb]
    simp
    omega
  intro r hrr1 hrr2
  simp only [return_pages, if_neg ha0, hgpi]
  rw [if_neg hcond]
  simp only [hmb]
  rw [htot]
  obtain ⟨hml1, hml2, hml3⟩ := merge_chain s hinv R b rank.toNat rest hrk1 hR16
    hlist hal hfit MAX_RANK rank.toNat s'.free_lists s'.page_metadata
    (le_refl rank.toNat) hrkR (by omega) hlists hhits hmiss
  rw [hml2, hml3]
  have hq : ¬ (r < 1 ∨ (MAX_RANK : Int) < r) := by omega
  simp only [query_page_counts, if_neg hq]
  suffices hsame : push_front
      (merge_loop MAX_RANK s'.free_lists s'.page_metadata s.total_pages b
        rank.toNat).1 R b r.toNat = s.free_lists r.toNat by
    rw [hsame]
  by_cases hrR : r.toNat = R
  · rw [hrR, push_front_same, hml1 R, if_pos rfl, hlist]
  · rw [push_front_other _ _ _ _ hrR, hml1 r.toNat, if_neg hrR]

/-- Witness for C3: on the two-page pool, `alloc_pages(1)` succeeds at the
base address and an immediate `return_pages` restores the rank-1 count. -/
theorem C3_round_trip_witness :
    (query_page_counts (return_pages
        (alloc_pages (init_page initial_state 4096 2).2 1).2 4096).2 1).1 =
      (query_page_counts (init_page initial_state 4096 2).2 1).1 :=
  C3_round_trip (init_page initial_state 4096 2).2
    (Reachable.init initial_state Reachable.start 4096 2 (by decide) (by decide)
      (by decide))
    1 4096 (alloc_pages (init_page initial_state 4096 2).2 1).2 rfl
    1 (by decide) (by decide)

/-- If the page's metadata is not free, the downward scan of `query_ranks`
finds nothing. -/
theorem query_loop_notfound (m : Nat → page_meta_t) (total page_idx : Nat)
    (h : (m page_idx).is_free = false) :
    ∀ k, query_loop m total page_idx k = none := by
  intro k
  induction k with
  | zero => rfl
  | succ n ih =>
    simp only [query_loop]
    by_cases h1 : is_aligned page_idx (n + 1) = false
    · rw [if_pos h1]
      exact ih
    · rw [if_neg h1]
      by_cases h2 : total < page_idx + 2 ^ n
      · rw [if_pos h2]
        exact ih
      · rw [if_neg h2]
        rw [if_neg (fun hc => by rw [hc.1] at h; exact Bool.noConfusion h)]
        exact ih

/-- If the page's metadata is free with a well-formed rank, the downward scan
of `query_ranks` answers exactly that rank. -/
theorem query_loop_found (m : Nat → page_meta_t) (total page_idx r0 : Nat)
    (hfree : (m page_idx).is_free = true) (hrank : (m page_idx).rank = r0)
    (hr01 : 1 ≤ r0) (halg : page_idx % 2 ^ (r0 - 1) = 0)
    (hfitp : page_idx + 2 ^ (r0 - 1) ≤ total) :
    ∀ k, r0 ≤ k → query_loop m total page_idx k = some r0 := by
  intro k
  induction k with
  | zero =>
    intro hk
    omega
  | succ n ih =>
    intro hk
    by_cases he : r0 = n + 1
    · simp only [query_loop]
      have h1 : ¬ (is_aligned page_idx (n + 1) = false) := by
        simp only [is_aligned]
        rw [Nat.add_sub_cancel, show n = r0 - 1 by omega, halg]
        simp
      rw [if_neg h1]
      rw [if_neg (show ¬ total < page_idx + 2 ^ n by
        rw [show n = r0 - 1 by omega]
        omega)]
      rw [if_pos ⟨hfree, by rw [hrank, he]⟩, he]
    · have hr0n : r0 ≤ n := by omega
      simp only [query_loop]
      by_cases h1 : is_aligned page_idx (n + 1) = false
      · rw [if_pos h1]
        exact ih hr0n
      · rw [if_neg h1]
        by_cases h2 : total < page_idx + 2 ^ n
        · rw [if_pos h2]
          exact ih hr0n
        · rw [if_neg h2]
          rw [if_neg (fun hc => he (by rw [← hrank]; exact hc.2))]
          exact ih hr0n

/-- C8 (amended): in every reachable state, `query_ranks(p)` classifies by
the page's raw metadata: invalid page → `-EINVAL`; metadata not-free with
nonzero rank → that stored rank (the block's rank for a genuine allocated
head, but equally a stale rank left by the merge loop); metadata free → the
stored free rank; metadata not-free with rank 0 → 1. -/
theorem C8_query_ranks_classification (s : BuddyState) (hs : Reachable s)
    (p : Nat) :
    (get_page_index s p = none → (query_ranks s p).1 = -EINVAL) ∧
    (∀ pi, get_page_index s p = some pi →
      (((s.page_metadata pi).is_free = false ∧
          1 ≤ (s.page_metadata pi).rank) →
        (query_ranks s p).1 = ((s.page_metadata pi).rank : Int)) ∧
      ((s.page_metadata pi).is_free = true →
        (query_ranks s p).1 = ((s.page_metadata pi).rank : Int)) ∧
      (((s.page_metadata pi).is_free = false ∧
          (s.page_metadata pi).rank = 0) →
        (query_ranks s p).1 = 1)) := by
  have hinv := reachable_rinv s hs
  constructor
  · intro hn
    simp [query_ranks, hn]
  · intro pi hpi
    obtain ⟨hlt, hform⟩ := get_page_index_some hpi
    refine ⟨?_, ?_, ?_⟩
    · rintro ⟨hf, hr⟩
      simp only [query_ranks, hpi]
      rw [if_pos ⟨hf, by omega⟩]
    · intro hf
      set r0 := (s.page_metadata pi).rank with hr0
      have hin : pi ∈ s.free_lists r0 := hinv.freeIn pi hlt hf
      have hr01 : 1 ≤ r0 := by
        by_contra hc
        have hz : r0 = 0 := by omega
        rw [hz, hinv.lists0] at hin
        simp at hin
      have hmeta := hinv.meta pi hlt
      rw [← hr0] at hmeta
      rcases hmeta with h0 | ⟨_, hr16, halg, hfitp⟩
      · omega
      · have hql := query_loop_found s.page_metadata s.total_pages pi r0 hf
          hr0.symm hr01 halg hfitp MAX_RANK hr16
        simp only [query_ranks, hpi]
        rw [if_neg (fun hc => by rw [hf] at hc; exact Bool.noConfusion hc.1)]
        rw [hql]
    · rintro ⟨hf, hr⟩
      have hql := query_loop_notfound s.page_metadata s.total_pages pi hf
        MAX_RANK
      simp only [query_ranks, hpi]
      rw [if_neg (fun hc => by rw [hr] at hc; exact Nat.lt_irrefl 0 hc.2)]
      rw [hql]

/-- Witness for C8: on the two-page pool, page 1 is a never-titled filler
page (rank 0, not free), and `query_ranks` answers the default 1. -/
theorem C8_query_ranks_classification_witness :
    (query_ranks (init_page initial_state 4096 2).2 8192).1 = 1 :=
  ((C8_query_ranks_classification (init_page initial_state 4096 2).2
    (Reachable.init initial_state Reachable.start 4096 2 (by decide) (by decide)
      (by decide)) 8192).2 1 (by decide)).2.2 (by decide)

/-- `countP` distributes over `flatten` as a sum. -/
theorem countP_flatten_eq {α : Type} (p : α → Bool) (L : List (List α)) :
    L.flatten.countP p = (L.map (fun l => l.countP p)).sum := by
  induction L with
  | nil => rfl
  | cons l L ih =>
    rw [List.flatten_cons, List.countP_append, List.map_cons, List.sum_cons, ih]

/-- `countP` after a `map` counts the composed predicate. -/
theorem countP_map_eq {α β : Type} (f : α → β) (p : β → Bool) (l : List α) :
    (l.map f).countP p = l.countP (fun x => p (f x)) := by
  induction l with
  | nil => rfl
  | cons a t ih => simp [List.countP_cons, ih]

/-- Erasing a present element removes its contribution to `countP`. -/
theorem countP_erase_mem {l : List Nat} {a : Nat} (h : a ∈ l)
    (p : Nat → Bool) :
    (l.erase a).countP p + (if p a then 1 else 0) = l.countP p := by
  induction l with
  | nil => simp at h
  | cons c t ih =>
    by_cases hca : c = a
    · subst hca
      rw [List.erase_cons_head, List.countP_cons]
    · have hat : a ∈ t := by
        rcases List.mem_cons.mp h with h1 | h1
        · exact absurd h1.symm hca
        · exact h1
      rw [List.erase_cons, if_neg (by simpa using hca), List.countP_cons,
        List.countP_cons]
      have := ih hat
      omega

/-- `countP` as a sum of indicator values. -/
theorem countP_eq_sum_map {α : Type} (l : List α) (q : α → Bool) :
    l.countP q = (l.map (fun x => if q x then 1 else 0)).sum := by
  induction l with
  | nil => rfl
  | cons a t ih =>
    rw [List.countP_cons, List.map_cons, List.sum_cons, ih]
    omega

/-- Sums of pointwise sums split. -/
theorem sum_map_add {α : Type} (l : List α) (f g : α → Nat) :
    (l.map (fun x => f x + g x)).sum = (l.map f).sum + (l.map g).sum := by
  induction l with
  | nil => rfl
  | cons a t ih =>
    simp only [List.map_cons, List.sum_cons, ih]
    omega

/-- A sum of zeros is zero. -/
theorem sum_map_zero {α : Type} (l : List α) :
    (l.map (fun _ => (0 : Nat))).sum = 0 := by
  induction l with
  | nil => rfl
  | cons a t ih => simp only [List.map_cons, List.sum_cons, ih]

/-- A sum of ones is the length. -/
theorem sum_map_one {α : Type} (l : List α) :
    (l.map (fun _ => (1 : Nat))).sum = l.length := by
  induction l with
  | nil => rfl
  | cons a t ih => simp only [List.map_cons, List.sum_cons, ih, List.length_cons]; omega

/-- Double counting: summing per-row counts equals summing per-column counts. -/
theorem sum_countP_exchange {α β : Type} (l : List α) (m : List β)
    (p : α → β → Bool) :
    (l.map (fun a => m.countP (p a))).sum =
      (m.map (fun b => l.countP (fun a => p a b))).sum := by
  induction l with
  | nil =>
    simp only [List.map_nil, List.sum_nil, List.countP_nil]
    exact (sum_map_zero m).symm
  | cons a l ih =>
    simp only [List.map_cons, List.sum_cons, ih]
    have h2 : m.map (fun b => List.countP (fun x => p x b) (a :: l)) =
        m.map (fun b => (if p a b then 1 else 0) +
          List.countP (fun x => p x b) l) := by
      refine List.map_congr_left ?_
      intro b _
      rw [List.countP_cons]
      omega
    rw [h2, sum_map_add, ← countP_eq_sum_map]

/-- Counting the members of `[a, b)` inside `[0, n)`. -/
theorem countP_range_interval (a b n : Nat) :
    (List.range n).countP (fun pg => decide (a ≤ pg ∧ pg < b)) =
      min b n - min a n := by
  induction n with
  | zero => simp
  | succ k ih =>
    rw [List.range_succ, List.countP_append, ih]
    simp only [List.countP_cons, List.countP_nil]
    by_cases h : a ≤ k ∧ k < b
    · rw [if_pos (by simpa using h)]
      omega
    · rw [if_neg (by simpa using h)]
      omega

/-- Changing a summand function at one index shifts the range sum by the
difference there. -/
theorem sum_range_map_update (n k0 : Nat) (f g : Nat → Nat) (hk : k0 < n)
    (heq : ∀ k, k ≠ k0 → f k = g k) :
    ((List.range n).map f).sum + g k0 = ((List.range n).map g).sum + f k0 := by
  induction n with
  | zero => omega
  | succ m ih =>
    rw [List.range_succ, List.map_append, List.sum_append, List.map_append,
      List.sum_append]
    simp only [List.map_cons, List.map_nil, List.sum_cons, List.sum_nil]
    by_cases hk0 : k0 = m
    · subst hk0
      have hmc : (List.range k0).map f = (List.range k0).map g := by
        refine List.map_congr_left ?_
        intro k hkm
        exact heq k (by have := List.mem_range.mp hkm; omega)
      rw [hmc]
      omega
    · have hfm : f m = g m := heq m (fun hh => hk0 hh.symm)
      rw [hfm]
      have := ih (by omega)
      omega

/-- The free-block tally of a state is the per-rank tally of its lists. -/
theorem cover_count_eq_covSum (s : BuddyState) (pg : Nat) :
    cover_count (free_blocks s) pg = covSum s.free_lists pg := by
  unfold cover_count free_blocks covSum
  rw [countP_flatten_eq, List.map_map]
  refine congrArg List.sum (List.map_congr_left ?_)
  intro k _
  simp only [Function.comp]
  rw [countP_map_eq]

/-- Splitting a block of rank `t + 1` covers the same pages as its two
rank-`t` halves. -/
theorem cnt_split (b t pg : Nat) (ht : 1 ≤ t) :
    cnt (b, t + 1) pg = cnt (b, t) pg + cnt (b + 2 ^ (t - 1), t) pg := by
  have h2 : (2 : Nat) ^ t = 2 ^ (t - 1) + 2 ^ (t - 1) := by
    conv_lhs => rw [show t = t - 1 + 1 by omega]
    rw [pow_succ]
    omega
  simp only [cnt, covers, Nat.add_sub_cancel, decide_eq_true_eq]
  by_cases hA : b ≤ pg ∧ pg < b + 2 ^ t
  · by_cases hB : b ≤ pg ∧ pg < b + 2 ^ (t - 1)
    · rw [if_pos hA, if_pos hB, if_neg (by omega)]
    · rw [if_pos hA, if_neg hB, if_pos (by omega)]
  · by_cases hB : b ≤ pg ∧ pg < b + 2 ^ (t - 1)
    · exact absurd hA (by omega)
    · rw [if_neg hA, if_neg hB, if_neg (by omega)]

/-- Pushing a block onto list `r` adds its coverage to the tally. -/
theorem covSum_push (ls : Nat → List Nat) (r v : Nat) (hr1 : 1 ≤ r)
    (hr16 : r ≤ MAX_RANK) (pg : Nat) :
    covSum (push_front ls r v) pg = covSum ls pg + cnt (v, r) pg := by
  have hr' : r - 1 + 1 = r := by omega
  have hupd := sum_range_map_update MAX_RANK (r - 1)
    (fun k => ((push_front ls r v) (k + 1)).countP (fun q => covers (q, k + 1) pg))
    (fun k => (ls (k + 1)).countP (fun q => covers (q, k + 1) pg))
    (by omega)
    (fun k hk => by
      dsimp only
      rw [push_front_other ls r v (k + 1) (by omega)])
  dsimp only at hupd
  rw [hr', push_front_same, List.countP_cons] at hupd
  unfold covSum
  unfold cnt
  omega

/-- Removing a present block from list `r` subtracts its coverage from the
tally. -/
theorem covSum_erase (ls : Nat → List Nat) (r v : Nat) (hr1 : 1 ≤ r)
    (hr16 : r ≤ MAX_RANK) (hv : v ∈ ls r) (pg : Nat) :
    covSum (remove_from_free_list ls r v) pg + cnt (v, r) pg = covSum ls pg := by
  have hr' : r - 1 + 1 = r := by omega
  have hupd := sum_range_map_update MAX_RANK (r - 1)
    (fun k => ((remove_from_free_list ls r v) (k + 1)).countP
      (fun q => covers (q, k + 1) pg))
    (fun k => (ls (k + 1)).countP (fun q => covers (q, k + 1) pg))
    (by omega)
    (fun k hk => by
      dsimp only
      rw [remove_from_free_list_other ls r v (k + 1) (by omega)])
  dsimp only at hupd
  rw [hr', remove_from_free_list_same] at hupd
  have herase := countP_erase_mem hv (fun q => covers (q, r) pg)
  unfold covSum
  unfold cnt
  omega

/-- The tally only depends on the lists pointwise. -/
theorem covSum_congr (ls ls' : Nat → List Nat) (h : ∀ j, ls j = ls' j)
    (pg : Nat) : covSum ls pg = covSum ls' pg := by
  unfold covSum
  refine congrArg List.sum (List.map_congr_left ?_)
  intro k _
  rw [h (k + 1)]

/-- A list member covering `pg` contributes at least `1` to the tally. -/
theorem covSum_ge_one (ls : Nat → List Nat) (r v pg : Nat) (hr1 : 1 ≤ r)
    (hr16 : r ≤ MAX_RANK) (hv : v ∈ ls r) (hc : covers (v, r) pg = true) :
    1 ≤ covSum ls pg := by
  have h1 := covSum_erase ls r v hr1 hr16 hv pg
  unfold cnt at h1
  rw [if_pos hc] at h1
  omega

/-- Two distinct list occurrences covering `pg` contribute at least `2`. -/
theorem covSum_ge_two (ls : Nat → List Nat) (r v r' v' pg : Nat) (hr1 : 1 ≤ r)
    (hr16 : r ≤ MAX_RANK) (hr1' : 1 ≤ r') (hr16' : r' ≤ MAX_RANK)
    (hv : v ∈ ls r) (hv' : v' ∈ remove_from_free_list ls r v r')
    (hc : covers (v, r) pg = true) (hc' : covers (v', r') pg = true) :
    2 ≤ covSum ls pg := by
  have h1 := covSum_erase ls r v hr1 hr16 hv pg
  have h2 := covSum_ge_one (remove_from_free_list ls r v) r' v' pg hr1' hr16'
    hv' hc'
  unfold cnt at h1
  rw [if_pos hc] at h1
  omega

/-- A block list member covering `pg` contributes at least `1` to the count. -/
theorem cover_count_ge_one (l : List (Nat × Nat)) (e : Nat × Nat) (pg : Nat)
    (he : e ∈ l) (hc : covers e pg = true) : 1 ≤ cover_count l pg := by
  unfold cover_count
  have hx : 0 < l.countP (fun x => covers x pg) :=
    List.countP_pos_iff.mpr ⟨e, he, hc⟩
  omega

/-- Membership survives removal from a different slot or of a different
element. -/
theorem mem_remove_of_ne (ls : Nat → List Nat) (r v r' v' : Nat)
    (hv' : v' ∈ ls r') (hne : ¬ (r' = r ∧ v' = v)) :
    v' ∈ remove_from_free_list ls r v r' := by
  by_cases hr : r' = r
  · subst hr
    rw [remove_from_free_list_same]
    have hvv : v' ≠ v := fun hh => hne ⟨rfl, hh⟩
    exact (List.mem_erase_of_ne hvv).mpr hv'
  · rw [remove_from_free_list_other ls r v r' hr]
    exact hv'

/-- Walking the split chain downward preserves total coverage: the lists of
the post-allocation state at stage `t` plus the stage-`t` block cover what
the original lists covered. -/
theorem alloc_cover_chain (s : BuddyState) (R b rk : Nat) (rest : List Nat)
    (hrk1 : 1 ≤ rk) (hrkR : rk ≤ R) (hR16 : R ≤ MAX_RANK)
    (hlist : s.free_lists R = b :: rest) (pg : Nat) :
    ∀ d t, R - t ≤ d → rk ≤ t → t ≤ R →
      covSum (fun j => if j = R then rest
        else if t ≤ j ∧ j < R then (b + 2 ^ (j - 1)) :: s.free_lists j
        else s.free_lists j) pg + cnt (b, t) pg = covSum s.free_lists pg := by
  intro d
  induction d with
  | zero =>
    intro t h0 h1 h2
    have htR : t = R := by omega
    rw [htR]
    have hbm : b ∈ s.free_lists R := by
      rw [hlist]
      exact List.mem_cons_self b rest
    have he := covSum_erase s.free_lists R b (by omega) hR16 hbm pg
    have hcg : covSum (fun j => if j = R then rest
        else if R ≤ j ∧ j < R then (b + 2 ^ (j - 1)) :: s.free_lists j
        else s.free_lists j) pg =
        covSum (remove_from_free_list s.free_lists R b) pg := by
      refine covSum_congr _ _ ?_ pg
      intro j
      by_cases hjR : j = R
      · subst hjR
        rw [if_pos rfl, remove_from_free_list_same, hlist,
          List.erase_cons_head]
      · rw [if_neg hjR, if_neg (by omega),
          remove_from_free_list_other s.free_lists R b j hjR]
    rw [hcg]
    exact he
  | succ n ih =>
    intro t h0 h1 h2
    by_cases htR : t = R
    · rw [htR]
      have hbm : b ∈ s.free_lists R := by
        rw [hlist]
        exact List.mem_cons_self b rest
      have he := covSum_erase s.free_lists R b (by omega) hR16 hbm pg
      have hcg : covSum (fun j => if j = R then rest
          else if R ≤ j ∧ j < R then (b + 2 ^ (j - 1)) :: s.free_lists j
          else s.free_lists j) pg =
          covSum (remove_from_free_list s.free_lists R b) pg := by
        refine covSum_congr _ _ ?_ pg
        intro j
        by_cases hjR : j = R
        · subst hjR
          rw [if_pos rfl, remove_from_free_list_same, hlist,
            List.erase_cons_head]
        · rw [if_neg hjR, if_neg (by omega),
            remove_from_free_list_other s.free_lists R b j hjR]
      rw [hcg]
      exact he
    · have htR' : t < R := by omega
      have hstep : covSum (fun j => if j = R then rest
          else if t ≤ j ∧ j < R then (b + 2 ^ (j - 1)) :: s.free_lists j
          else s.free_lists j) pg =
          covSum (fun j => if j = R then rest
            else if t + 1 ≤ j ∧ j < R then (b + 2 ^ (j - 1)) :: s.free_lists j
            else s.free_lists j) pg + cnt (b + 2 ^ (t - 1), t) pg := by
        have hpt : covSum (push_front (fun j => if j = R then rest
            else if t + 1 ≤ j ∧ j < R then (b + 2 ^ (j - 1)) :: s.free_lists j
            else s.free_lists j) t (b + 2 ^ (t - 1))) pg =
            covSum (fun j => if j = R then rest
              else if t + 1 ≤ j ∧ j < R then (b + 2 ^ (j - 1)) :: s.free_lists j
              else s.free_lists j) pg + cnt (b + 2 ^ (t - 1), t) pg :=
          covSum_push _ t (b + 2 ^ (t - 1)) (by omega) (by omega) pg
        rw [← hpt]
        refine covSum_congr _ _ ?_ pg
        intro j
        by_cases hjt : j = t
        · subst hjt
          rw [if_neg htR, if_pos ⟨le_refl j, htR'⟩, push_front_same,
            if_neg htR, if_neg (by omega)]
        · rw [push_front_other _ _ _ _ hjt]
          by_cases hjR : j = R
          · rw [if_pos hjR, if_pos hjR]
          · rw [if_neg hjR, if_neg hjR]
            by_cases hmid : t + 1 ≤ j ∧ j < R
            · rw [if_pos (by omega), if_pos hmid]
            · rw [if_neg (by omega), if_neg hmid]
      have hsplit := cnt_split b t pg (by omega)
      have hrec := ih (t + 1) (by omega) (by omega) (by omega)
      rw [hstep]
      omega

/-- A block covers its own head page. -/
theorem covers_head (v r : Nat) : covers (v, r) v = true := by
  simp only [covers, decide_eq_true_eq]
  exact ⟨le_refl v, by have := Nat.two_pow_pos (r - 1); omega⟩

/-- A block covers every page of its span. -/
theorem covers_of_range (v r pg : Nat) (h1 : v ≤ pg)
    (h2 : pg < v + 2 ^ (r - 1)) : covers (v, r) pg = true := by
  simp only [covers, decide_eq_true_eq]
  exact ⟨h1, h2⟩

/-- `galloc` preserves the valid-usage invariant. -/
theorem vinv_galloc (g : GhostState) (h : VInv g) (rank : Int) :
    VInv (galloc g rank) := by
  cases halloc : alloc_pages g.st rank with
  | mk res s' =>
    cases res with
    | error e =>
      have h1 : (alloc_pages g.st rank).1 = Except.error e := by rw [halloc]
      have h2 := alloc_pages_error_state g.st rank e h1
      rw [halloc] at h2
      have hst : s' = g.st := h2
      simp only [galloc, halloc, hst]
      exact h
    | ok a =>
      obtain ⟨R, b, rest, hr1, hr16i, hrk1, hrkR, hR16, hlist, hempt, ha,
        hbase, htot, hlists, hmb, hhits, hmiss⟩ :=
        alloc_pages_ok_spec g.st rank a s' halloc
      have hbmem : b ∈ g.st.free_lists R := by
        rw [hlist]
        exact List.mem_cons_self b rest
      obtain ⟨halb, hfitb⟩ := h.mem R (by omega) hR16 b hbmem
      have hpowR : 0 < 2 ^ (R - 1) := Nat.two_pow_pos (R - 1)
      have hblt : b < g.st.total_pages := by omega
      have hhead : (a - s'.base_addr) / PAGE_SIZE = b := by
        rw [ha, hbase]
        simp only [get_page_addr, PAGE_SIZE]
        omega
      have hexcl : ∀ r' v', 1 ≤ r' → r' ≤ MAX_RANK →
          v' ∈ g.st.free_lists r' → covers (b, R) v' = true →
          ¬ (r' = R ∧ v' = b) → False := by
        intro r' v' h1 h2 hv' hcov hne
        have hv'' : v' ∈ remove_from_free_list g.st.free_lists R b r' :=
          mem_remove_of_ne g.st.free_lists R b r' v' hv' hne
        have h2g := covSum_ge_two g.st.free_lists R b r' v' v' (by omega) hR16
          h1 h2 hbmem hv'' hcov (covers_head v' r')
        have hvlt : v' < g.st.total_pages := by
          have := (h.mem r' h1 h2 v' hv').2
          have := Nat.two_pow_pos (r' - 1)
          omega
        have := h.cover v' hvlt
        omega
      simp only [galloc, halloc]
      rw [hhead]
      refine ⟨?_, ?_, ?_, ?_, ?_, ?_, ?_, ?_, ?_⟩
      · dsimp only
        rw [hbase, htot]
        exact h.base
      · dsimp only
        rw [hlists 0, if_neg (by omega), if_neg (by omega)]
        exact h.lists0
      · intro r hr
        dsimp only
        rw [hlists r, if_neg (by omega), if_neg (by omega)]
        exact h.listsHi r hr
      · intro r h1 h2 p hp
        dsimp only at hp ⊢
        rw [htot]
        rw [hlists r] at hp
        by_cases hrR : r = R
        · rw [if_pos hrR] at hp
          refine h.mem r h1 h2 p ?_
          rw [hrR, hlist]
          exact List.mem_cons_of_mem b hp
        · rw [if_neg hrR] at hp
          by_cases hmid : rank.toNat ≤ r ∧ r < R
          · rw [if_pos hmid, hempt r hmid.1 hmid.2] at hp
            have hpe : p = b + 2 ^ (r - 1) := by
              rcases List.mem_cons.mp hp with h3 | h3
              · exact h3
              · simp at h3
            constructor
            · rw [hpe, Nat.add_mod_right]
              exact pow_mod_zero_mono halb (by omega)
            · rw [hpe]
              have hle : (2 : Nat) ^ (r - 1) + 2 ^ (r - 1) ≤ 2 ^ (R - 1) := by
                have h2r : (2 : Nat) ^ (r - 1) + 2 ^ (r - 1) = 2 ^ r := by
                  conv_rhs => rw [show r = r - 1 + 1 by omega]
                  rw [pow_succ]
                  omega
                rw [h2r]
                exact Nat.pow_le_pow_right (by omega) (by omega)
              omega
          · rw [if_neg hmid] at hp
            exact h.mem r h1 h2 p hp
      · intro r p hp
        dsimp only at hp ⊢
        rw [hlists r] at hp
        by_cases hrR : r = R
        · rw [if_pos hrR] at hp
          have hpR : p ∈ g.st.free_lists R := by
            rw [hlist]
            exact List.mem_cons_of_mem b hp
          have hpb : p ≠ b := by
            intro hpe
            rw [hpe] at hp
            have hvrest : b ∈ remove_from_free_list g.st.free_lists R b R := by
              rw [remove_from_free_list_same, hlist, List.erase_cons_head]
              exact hp
            have h2g := covSum_ge_two g.st.free_lists R b R b b (by omega)
              hR16 (by omega) hR16 hbmem hvrest (covers_head b R)
              (covers_head b R)
            have := h.cover b hblt
            omega
          have hphit : ∀ j, rank.toNat ≤ j → j < R → p ≠ b + 2 ^ (j - 1) := by
            intro j hj1 hj2 hpe
            have hprest : p ∈ remove_from_free_list g.st.free_lists R b R := by
              rw [remove_from_free_list_same, hlist, List.erase_cons_head]
              exact hp
            have hcv : covers (b, R) p = true := by
              refine covers_of_range b R p ?_ ?_
              · rw [hpe]
                have := Nat.two_pow_pos (j - 1)
                omega
              · rw [hpe]
                have := Nat.pow_lt_pow_right (show (1 : Nat) < 2 by norm_num)
                  (show j - 1 < R - 1 by omega)
                omega
            have h2g := covSum_ge_two g.st.free_lists R b R p p (by omega)
              hR16 (by omega) hR16 hbmem hprest hcv (covers_head p R)
            have hplt : p < g.st.total_pages := by
              have := (h.mem R (by omega) hR16 p hpR).2
              have := Nat.two_pow_pos (R - 1)
              omega
            have := h.cover p hplt
            omega
          rw [hmiss p hpb hphit, hrR]
          exact h.coh R p hpR
        · rw [if_neg hrR] at hp
          by_cases hmid : rank.toNat ≤ r ∧ r < R
          · rw [if_pos hmid, hempt r hmid.1 hmid.2] at hp
            have hpe : p = b + 2 ^ (r - 1) := by
              rcases List.mem_cons.mp hp with h3 | h3
              · exact h3
              · simp at h3
            rw [hpe]
            exact hhits r hmid.1 hmid.2
          · rw [if_neg hmid] at hp
            have hr1' : 1 ≤ r := by
              by_contra hc
              rw [show r = 0 by omega, h.lists0] at hp
              simp at hp
            have hr16' : r ≤ MAX_RANK := by
              by_contra hc
              rw [h.listsHi r (by omega)] at hp
              simp at hp
            have hpb : p ≠ b := by
              intro hpe
              rw [hpe] at hp
              exact hexcl r b hr1' hr16' hp (covers_head b R)
                (fun hc => hrR hc.1)
            have hphit : ∀ j, rank.toNat ≤ j → j < R →
                p ≠ b + 2 ^ (j - 1) := by
              intro j hj1 hj2 hpe
              refine hexcl r p hr1' hr16' hp ?_ (fun hc => hpb hc.2)
              refine covers_of_range b R p ?_ ?_
              · rw [hpe]
                have := Nat.two_pow_pos (j - 1)
                omega
              · rw [hpe]
                have := Nat.pow_lt_pow_right (show (1 : Nat) < 2 by norm_num)
                  (show j - 1 < R - 1 by omega)
                omega
            rw [hmiss p hpb hphit]
            exact h.coh r p hp
      · intro q hq hqf
        dsimp only at hq hqf ⊢
        rw [htot] at hq
        by_cases hqb : q = b
        · exfalso
          rw [hqb, hmb] at hqf
          exact Bool.noConfusion hqf
        · by_cases hqhit : ∃ j, rank.toNat ≤ j ∧ j < R ∧ q = b + 2 ^ (j - 1)
          · obtain ⟨j, hj1, hj2, hje⟩ := hqhit
            have hqm : s'.page_metadata q = ⟨j, true⟩ := by
              rw [hje]
              exact hhits j hj1 hj2
            rw [hqm]
            dsimp only
            rw [hlists j, if_neg (by omega), if_pos ⟨hj1, hj2⟩, hje]
            exact List.mem_cons_self _ _
          · push_neg at hqhit
            have hmq := hmiss q hqb hqhit
            rw [hmq] at hqf ⊢
            have hold := h.freeIn q hq hqf
            rw [hlists ((g.st.page_metadata q).rank)]
            by_cases hr0R : (g.st.page_metadata q).rank = R
            · rw [if_pos hr0R]
              rw [hr0R, hlist] at hold
              rcases List.mem_cons.mp hold with h3 | h3
              · exact absurd h3 hqb
              · exact h3
            · rw [if_neg hr0R]
              by_cases hmid : rank.toNat ≤ (g.st.page_metadata q).rank ∧
                  (g.st.page_metadata q).rank < R
              · rw [if_pos hmid]
                rw [hempt _ hmid.1 hmid.2] at hold
                simp at hold
              · rw [if_neg hmid]
                exact hold
      · intro e he
        dsimp only at he ⊢
        rw [htot]
        rcases List.mem_cons.mp he with h3 | h3
        · rw [h3]
          refine ⟨hmb, by omega, by omega, ?_, ?_⟩
          · exact pow_mod_zero_mono halb (by omega)
          · dsimp only
            have := Nat.pow_le_pow_right (show 0 < 2 by omega)
              (show rank.toNat - 1 ≤ R - 1 by omega)
            omega
        · obtain ⟨hme, h21, h216, hal2, hfit2⟩ := h.amem e h3
          have heb : e.1 ≠ b := by
            intro hee
            have hc1 := covSum_ge_one g.st.free_lists R b e.1 (by omega) hR16
              hbmem (by rw [hee]; exact covers_head b R)
            have hc2 := cover_count_ge_one g.allocated e e.1 h3
              (covers_head e.1 e.2)
            have hlt : e.1 < g.st.total_pages := by
              have := Nat.two_pow_pos (e.2 - 1)
              omega
            have := h.cover e.1 hlt
            omega
          have hehit : ∀ j, rank.toNat ≤ j → j < R →
              e.1 ≠ b + 2 ^ (j - 1) := by
            intro j hj1 hj2 hee
            have hc1 : covers (b, R) e.1 = true := by
              refine covers_of_range b R e.1 ?_ ?_
              · rw [hee]
                have := Nat.two_pow_pos (j - 1)
                omega
              · rw [hee]
                have := Nat.pow_lt_pow_right (show (1 : Nat) < 2 by norm_num)
                  (show j - 1 < R - 1 by omega)
                omega
            have hc1' := covSum_ge_one g.st.free_lists R b e.1 (by omega) hR16
              hbmem hc1
            have hc2 := cover_count_ge_one g.allocated e e.1 h3
              (covers_head e.1 e.2)
            have hlt : e.1 < g.st.total_pages := by
              have := Nat.two_pow_pos (e.2 - 1)
              omega
            have := h.cover e.1 hlt
            omega
          rw [hmiss e.1 heb hehit]
          exact ⟨hme, h21, h216, hal2, hfit2⟩
      · intro r h1 h2 p hp hbp
        dsimp only at hp hbp
        rw [hlists r] at hp hbp
        by_cases hrR : r = R
        · rw [if_pos hrR] at hp hbp
          have hpo : p ∈ g.st.free_lists R := by
            rw [hlist]
            exact List.mem_cons_of_mem b hp
          have hbo : get_buddy_index p r ∈ g.st.free_lists R := by
            rw [hlist]
            exact List.mem_cons_of_mem b hbp
          rw [hrR] at hbo
          exact h.nopair R (by omega) (by omega) p hpo hbo
        · rw [if_neg hrR] at hp hbp
          by_cases hmid : rank.toNat ≤ r ∧ r < R
          · rw [if_pos hmid, hempt r hmid.1 hmid.2] at hp hbp
            have hpe : p = b + 2 ^ (r - 1) := by
              rcases List.mem_cons.mp hp with h3 | h3
              · exact h3
              · simp at h3
            have hbe : get_buddy_index p r = b + 2 ^ (r - 1) := by
              rcases List.mem_cons.mp hbp with h3 | h3
              · exact h3
              · simp at h3
            rw [hpe] at hbe
            simp only [get_buddy_index] at hbe
            exact buddy_ne (b + 2 ^ (r - 1)) (r - 1) hbe
          · rw [if_neg hmid] at hp hbp
            exact h.nopair r h1 h2 p hp hbp
      · intro pg hpg
        dsimp only at hpg ⊢
        rw [htot] at hpg
        have hchain := alloc_cover_chain g.st R b rank.toNat rest hrk1 hrkR
          hR16 hlist pg R rank.toNat (by omega) (le_refl _) hrkR
        have hcs : covSum s'.free_lists pg = covSum (fun j => if j = R then rest
            else if rank.toNat ≤ j ∧ j < R then
              (b + 2 ^ (j - 1)) :: g.st.free_lists j
            else g.st.free_lists j) pg :=
          covSum_congr _ _ hlists pg
        have hcc : cover_count ((b, rank.toNat) :: g.allocated) pg =
            cover_count g.allocated pg + cnt (b, rank.toNat) pg := by
          unfold cover_count cnt
          rw [List.countP_cons]
        have hcov := h.cover pg hpg
        rw [hcs, hcc]
        omega

/-- A block does not cover pages outside its span. -/
theorem covers_false (v r pg : Nat) (h : pg < v ∨ v + 2 ^ (r - 1) ≤ pg) :
    covers (v, r) pg = false := by
  simp only [covers, decide_eq_false_iff_not]
  omega

/-- Indicator value outside the span. -/
theorem cnt_eq_zero (v r pg : Nat) (h : pg < v ∨ v + 2 ^ (r - 1) ≤ pg) :
    cnt (v, r) pg = 0 := by
  unfold cnt
  rw [covers_false v r pg h]
  rfl

/-- Indicator value inside the span. -/
theorem cnt_eq_one (v r pg : Nat) (h1 : v ≤ pg) (h2 : pg < v + 2 ^ (r - 1)) :
    cnt (v, r) pg = 1 := by
  unfold cnt
  rw [covers_of_range v r pg h1 h2]
  rfl

/-- Empty lists cover nothing. -/
theorem covSum_nil (pg : Nat) : covSum (fun _ => []) pg = 0 := by
  unfold covSum
  simp only [List.countP_nil]
  exact sum_map_zero (List.range MAX_RANK)

/-- The `init_page` walk tiles `[0, cur)` exactly: each block pushed covers
precisely the fresh pages it spans. -/
theorem init_loop_cover (total : Nat) :
    ∀ (fuel : Nat) (ls : Nat → List Nat) (m : Nat → page_meta_t) (cur : Nat),
      (∀ pg, pg < cur → covSum ls pg = 1) →
      (∀ pg, cur ≤ pg → covSum ls pg = 0) →
      cur ≤ total →
      total - cur ≤ fuel →
      ∀ pg, pg < total →
        covSum (init_loop fuel ls m total cur).1 pg = 1 := by
  intro fuel
  induction fuel with
  | zero =>
    intro ls m cur h1 h2 hle hfuel pg hpg
    simp only [init_loop]
    exact h1 pg (by omega)
  | succ n ih =>
    intro ls m cur h1 h2 hle hfuel pg hpg
    simp only [init_loop]
    by_cases hcur : cur < total
    · rw [if_pos hcur]
      have hrk1 : 1 ≤ find_init_rank total cur MAX_RANK :=
        find_init_rank_pos total cur hcur MAX_RANK (by decide)
      rw [if_neg (by omega)]
      obtain ⟨hrk16, hrkfit, hrkal⟩ :=
        (find_init_rank_spec total cur MAX_RANK).1 hrk1
      have hbs : 0 < 2 ^ (find_init_rank total cur MAX_RANK - 1) :=
        Nat.two_pow_pos _
      refine ih (push_front ls (find_init_rank total cur MAX_RANK) cur)
        (set_meta m cur ⟨find_init_rank total cur MAX_RANK, true⟩)
        (cur + 2 ^ (find_init_rank total cur MAX_RANK - 1)) ?_ ?_ (by omega)
        (by omega) pg hpg
      · intro q hq
        rw [covSum_push ls (find_init_rank total cur MAX_RANK) cur (by omega)
          (by omega) q]
        by_cases hlt : q < cur
        · rw [h1 q hlt,
            cnt_eq_zero cur (find_init_rank total cur MAX_RANK) q (Or.inl hlt)]
        · rw [h2 q (by omega),
            cnt_eq_one cur (find_init_rank total cur MAX_RANK) q (by omega)
              (by omega)]
      · intro q hq
        rw [covSum_push ls (find_init_rank total cur MAX_RANK) cur (by omega)
          (by omega) q]
        rw [h2 q (by omega),
          cnt_eq_zero cur (find_init_rank total cur MAX_RANK) q (Or.inr hq)]
    · rw [if_neg hcur]
      exact h1 pg (by omega)

/-- `ginit` establishes the valid-usage invariant (for a nonzero base). -/
theorem vinv_ginit (g : GhostState) (p pgcount : Nat) (hp : 0 < p) :
    VInv (ginit g p pgcount) := by
  have hI0 : InitInv pgcount (fun _ => ([] : List Nat))
      (fun i => if i < pgcount then (⟨0, false⟩ : page_meta_t)
                else g.st.page_metadata i) := by
    refine ⟨rfl, fun r _ => rfl, ?_, ?_, ?_, ?_, ?_⟩
    · intro r _ _ q hq
      simp at hq
    · intro q hq
      left
      simp [hq]
    · intro q hq hfree
      simp [hq] at hfree
    · intro r q hq
      simp at hq
    · intro r _ _ q hq
      simp at hq
  have hI := init_loop_inv pgcount pgcount (fun _ => [])
    (fun i => if i < pgcount then (⟨0, false⟩ : page_meta_t)
              else g.st.page_metadata i) 0 hI0
    (fun r q hq => absurd hq (by simp))
    (fun q _ hq2 => by simp [hq2])
    (Nat.zero_le _) (by omega)
  have hcov := init_loop_cover pgcount pgcount (fun _ => [])
    (fun i => if i < pgcount then (⟨0, false⟩ : page_meta_t)
              else g.st.page_metadata i) 0
    (fun pg hpg => absurd hpg (by omega))
    (fun pg _ => covSum_nil pg)
    (Nat.zero_le _) (by omega)
  refine ⟨Or.inl hp, hI.lists0, hI.listsHi, hI.mem, hI.coh, hI.freeIn, ?_,
    ?_, ?_⟩
  · intro e he
    exact absurd he (List.not_mem_nil e)
  · intro r h1 h2 q hq hbq
    obtain ⟨hbal, hbfit⟩ := hI.mem r h1 (by omega) _ hbq
    have hblt : get_buddy_index q r < pgcount := by
      have := Nat.two_pow_pos (r - 1)
      omega
    exact initinv_nopair hI r q h1 h2 hq hblt (hI.coh r _ hbq)
  · intro pg hpg
    have hc0 : cover_count ([] : List (Nat × Nat)) pg = 0 := rfl
    have := hcov pg hpg
    simp only [ginit, init_page] at hpg ⊢
    omega

/-- The pristine instrumented state satisfies the valid-usage invariant. -/
theorem vinv_start : VInv ⟨initial_state, []⟩ := by
  refine ⟨Or.inr rfl, rfl, fun r _ => rfl, ?_, ?_, ?_, ?_, ?_, ?_⟩
  · intro r _ _ q hq
    simp [initial_state] at hq
  · intro r q hq
    simp [initial_state] at hq
  · intro q hq hfree
    simp [initial_state] at hfree
  · intro e he
    exact absurd he (List.not_mem_nil e)
  · intro r _ _ q hq
    simp [initial_state] at hq
  · intro pg hpg
    exfalso
    have h0 : (⟨initial_state, []⟩ : GhostState).st.total_pages = 0 := rfl
    omega

/-- XOR with a power of two is an involution. -/
theorem buddy_invol (q m : Nat) : (q ^^^ 2 ^ m) ^^^ 2 ^ m = q := by
  rw [Nat.xor_assoc, Nat.xor_self, Nat.xor_zero]

/-- The final push of `return_pages` re-establishes the valid-usage
invariant, given that the merge loop stopped for a sound reason. -/
theorem final_push_vinv (ls : Nat → List Nat) (m : Nat → page_meta_t)
    (base total p cr : Nat) (aR : List (Nat × Nat))
    (hbase : 0 < base ∨ total = 0)
    (h0 : ls 0 = [])
    (hHi : ∀ r', MAX_RANK < r' → ls r' = [])
    (hmem : ∀ r', 1 ≤ r' → r' ≤ MAX_RANK → ∀ q ∈ ls r',
      q % 2 ^ (r' - 1) = 0 ∧ q + 2 ^ (r' - 1) ≤ total)
    (hcoh : ∀ r', ∀ q ∈ ls r', m q = ⟨r', true⟩)
    (hfreeIn : ∀ q, q < total → (m q).is_free = true → q ∈ ls ((m q).rank))
    (hamem : ∀ e ∈ aR, m e.1 = ⟨e.2, false⟩ ∧ 1 ≤ e.2 ∧ e.2 ≤ MAX_RANK ∧
      e.1 % 2 ^ (e.2 - 1) = 0 ∧ e.1 + 2 ^ (e.2 - 1) ≤ total)
    (hnp : ∀ r', 1 ≤ r' → r' < MAX_RANK → ∀ q ∈ ls r',
      get_buddy_index q r' ∉ ls r')
    (hcr1 : 1 ≤ cr) (hcr16 : cr ≤ MAX_RANK) (hal : p % 2 ^ (cr - 1) = 0)
    (hfit : p + 2 ^ (cr - 1) ≤ total)
    (hcover : ∀ pg, pg < total →
      covSum ls pg + cnt (p, cr) pg + cover_count aR pg = 1)
    (hbreak : cr < MAX_RANK → get_buddy_index p cr < total →
      m (get_buddy_index p cr) = ⟨cr, true⟩ → False) :
    VInv ⟨⟨push_front ls cr p, base, total, set_meta m p ⟨cr, true⟩⟩, aR⟩ := by
  have hpow : 0 < 2 ^ (cr - 1) := Nat.two_pow_pos (cr - 1)
  have hplt : p < total := by omega
  have hselfcnt : cnt (p, cr) p = 1 := cnt_eq_one p cr p (le_refl p) (by omega)
  have hpnot : ∀ r', p ∉ ls r' := by
    intro r' hp
    have hr1' : 1 ≤ r' := by
      by_contra hc
      rw [show r' = 0 by omega, h0] at hp
      simp at hp
    have hr16' : r' ≤ MAX_RANK := by
      by_contra hc
      rw [hHi r' (by omega)] at hp
      simp at hp
    have h1 := covSum_ge_one ls r' p p hr1' hr16' hp (covers_head p r')
    have := hcover p hplt
    omega
  have hpalloc : ∀ e ∈ aR, e.1 ≠ p := by
    intro e he hep
    have hce : covers e p = true := by
      have hh : covers e e.1 = true := covers_head e.1 e.2
      rw [hep] at hh
      exact hh
    have h1 := cover_count_ge_one aR e p he hce
    have := hcover p hplt
    omega
  refine ⟨hbase, ?_, ?_, ?_, ?_, ?_, ?_, ?_, ?_⟩
  · dsimp only
    rw [push_front_other ls cr p 0 (by omega)]
    exact h0
  · intro r' hr'
    dsimp only
    rw [push_front_other ls cr p r' (by omega)]
    exact hHi r' hr'
  · intro r' h1 h2 q hq
    dsimp only at hq ⊢
    by_cases hrc : r' = cr
    · rw [hrc, push_front_same] at hq
      rcases List.mem_cons.mp hq with h3 | h3
      · rw [h3, hrc]
        exact ⟨hal, hfit⟩
      · rw [hrc]
        exact hmem cr hcr1 hcr16 q h3
    · rw [push_front_other ls cr p r' hrc] at hq
      exact hmem r' h1 h2 q hq
  · intro r' q hq
    dsimp only at hq ⊢
    by_cases hrc : r' = cr
    · rw [hrc, push_front_same] at hq
      rcases List.mem_cons.mp hq with h3 | h3
      · rw [h3, set_meta_same, hrc]
      · have hqp : q ≠ p := fun hh => hpnot cr (hh ▸ h3)
        rw [set_meta_other m p _ q hqp, hrc]
        exact hcoh cr q h3
    · rw [push_front_other ls cr p r' hrc] at hq
      have hqp : q ≠ p := fun hh => hpnot r' (hh ▸ hq)
      rw [set_meta_other m p _ q hqp]
      exact hcoh r' q hq
  · intro q hq hqf
    dsimp only at hq hqf ⊢
    by_cases hqp : q = p
    · rw [hqp, set_meta_same]
      dsimp only
      rw [push_front_same]
      exact List.mem_cons_self p (ls cr)
    · rw [set_meta_other m p _ q hqp] at hqf ⊢
      have hold := hfreeIn q hq hqf
      by_cases hrc : (m q).rank = cr
      · rw [hrc] at hold ⊢
        rw [push_front_same]
        exact List.mem_cons_of_mem p hold
      · rw [push_front_other ls cr p _ hrc]
        exact hold
  · intro e he
    dsimp only at he ⊢
    have hep := hpalloc e he
    rw [set_meta_other m p _ e.1 hep]
    exact hamem e he
  · intro r' h1 h2 q hq hbq
    dsimp only at hq hbq
    by_cases hrc : r' = cr
    · rw [hrc, push_front_same] at hq hbq
      rcases List.mem_cons.mp hq with h3 | h3
      · rcases List.mem_cons.mp hbq with h4 | h4
        · rw [h3] at h4
          simp only [get_buddy_index] at h4
          exact buddy_ne p (cr - 1) h4
        · rw [h3] at h4
          obtain ⟨hbal, hbfit⟩ := hmem cr hcr1 hcr16 _ h4
          exact hbreak (by omega) (by omega) (hcoh cr _ h4)
      · rcases List.mem_cons.mp hbq with h4 | h4
        · -- the buddy of q is p, so q is the buddy of p and sits free at cr
          have hq2 : get_buddy_index p cr = q := by
            simp only [get_buddy_index] at h4 ⊢
            rw [← h4]
            exact buddy_invol q (cr - 1)
          obtain ⟨hbal, hbfit⟩ := hmem cr hcr1 hcr16 q h3
          refine hbreak (by omega) (by omega) ?_
          rw [hq2]
          exact hcoh cr q h3
        · exact hnp cr hcr1 (by omega) q h3 h4
    · rw [push_front_other ls cr p r' hrc] at hq hbq
      exact hnp r' h1 h2 q hq hbq
  · intro pg hpg
    dsimp only at hpg ⊢
    rw [covSum_push ls cr p hcr1 hcr16 pg]
    have := hcover pg hpg
    omega

/-- The merge loop of `return_pages` preserves the valid-usage invariant:
each absorbed buddy was a genuine free block, and the merged block covers
exactly the union of the released block and the absorbed buddies. -/
theorem merge_loop_vinv (base total : Nat) (aR : List (Nat × Nat))
    (hbase : 0 < base ∨ total = 0) :
    ∀ (fuel : Nat) (ls : Nat → List Nat) (m : Nat → page_meta_t) (p cr : Nat),
      ls 0 = [] →
      (∀ r', MAX_RANK < r' → ls r' = []) →
      (∀ r', 1 ≤ r' → r' ≤ MAX_RANK → ∀ q ∈ ls r',
        q % 2 ^ (r' - 1) = 0 ∧ q + 2 ^ (r' - 1) ≤ total) →
      (∀ r', ∀ q ∈ ls r', m q = ⟨r', true⟩) →
      (∀ q, q < total → (m q).is_free = true → q ∈ ls ((m q).rank)) →
      (∀ e ∈ aR, m e.1 = ⟨e.2, false⟩ ∧ 1 ≤ e.2 ∧ e.2 ≤ MAX_RANK ∧
        e.1 % 2 ^ (e.2 - 1) = 0 ∧ e.1 + 2 ^ (e.2 - 1) ≤ total) →
      (∀ r', 1 ≤ r' → r' < MAX_RANK → ∀ q ∈ ls r',
        get_buddy_index q r' ∉ ls r') →
      1 ≤ cr → cr ≤ MAX_RANK → p % 2 ^ (cr - 1) = 0 →
      p + 2 ^ (cr - 1) ≤ total → (m p).is_free = false →
      (∀ pg, pg < total →
        covSum ls pg + cnt (p, cr) pg + cover_count aR pg = 1) →
      MAX_RANK - cr ≤ fuel →
      VInv ⟨⟨push_front (merge_loop fuel ls m total p cr).1
          (merge_loop fuel ls m total p cr).2.2.2
          (merge_loop fuel ls m total p cr).2.2.1, base, total,
        set_meta (merge_loop fuel ls m total p cr).2.1
          (merge_loop fuel ls m total p cr).2.2.1
          ⟨(merge_loop fuel ls m total p cr).2.2.2, true⟩⟩, aR⟩ := by
  intro fuel
  induction fuel with
  | zero =>
    intro ls m p cr h0 hHi hmem hcoh hfreeIn hamem hnp hcr1 hcr16 hal hfit hnf
      hcover hfuel
    simp only [merge_loop]
    exact final_push_vinv ls m base total p cr aR hbase h0 hHi hmem hcoh
      hfreeIn hamem hnp hcr1 hcr16 hal hfit hcover
      (fun hlt _ => absurd hlt (by omega))
  | succ n ih =>
    intro ls m p cr h0 hHi hmem hcoh hfreeIn hamem hnp hcr1 hcr16 hal hfit hnf
      hcover hfuel
    simp only [merge_loop]
    by_cases hr16 : cr < MAX_RANK
    · rw [if_pos hr16]
      by_cases hout : total ≤ get_buddy_index p cr
      · rw [if_pos hout]
        exact final_push_vinv ls m base total p cr aR hbase h0 hHi hmem hcoh
          hfreeIn hamem hnp hcr1 hcr16 hal hfit hcover
          (fun _ hbud => absurd hbud (by omega))
      · rw [if_neg hout]
        by_cases hmm : (m (get_buddy_index p cr)).is_free = false ∨
            (m (get_buddy_index p cr)).rank ≠ cr
        · rw [if_pos hmm]
          refine final_push_vinv ls m base total p cr aR hbase h0 hHi hmem hcoh
            hfreeIn hamem hnp hcr1 hcr16 hal hfit hcover
            (fun _ _ heq => ?_)
          rcases hmm with hc | hc <;> rw [heq] at hc <;> simp at hc
        · rw [if_neg hmm]
          push_neg at hmm
          obtain ⟨hβf, hβr⟩ := hmm
          replace hβf : (m (get_buddy_index p cr)).is_free = true := by
            cases hb : (m (get_buddy_index p cr)).is_free with
            | false => exact absurd hb hβf
            | true => rfl
          push_neg at hout
          have hβne : get_buddy_index p cr ≠ p := buddy_ne p (cr - 1)
          have hβmem : get_buddy_index p cr ∈ ls cr := by
            have hh := hfreeIn _ hout hβf
            rwa [hβr] at hh
          obtain ⟨hβal, hβfit⟩ := hmem cr hcr1 hcr16 _ hβmem
          have hβpow : 0 < 2 ^ (cr - 1) := Nat.two_pow_pos (cr - 1)
          have hβlt : get_buddy_index p cr < total := hout
          have hβonce : ∀ r' q,
              q ∈ remove_from_free_list ls cr (get_buddy_index p cr) r' →
              q ≠ get_buddy_index p cr := by
            intro r' q hq hqe
            rw [hqe] at hq
            have hr1' : 1 ≤ r' := by
              by_contra hc
              rw [show r' = 0 by omega,
                remove_from_free_list_other ls cr _ 0 (by omega), h0] at hq
              simp at hq
            have hr16' : r' ≤ MAX_RANK := by
              by_contra hc
              rw [remove_from_free_list_other ls cr _ r' (by omega),
                hHi r' (by omega)] at hq
              simp at hq
            have h2g := covSum_ge_two ls cr (get_buddy_index p cr) r'
              (get_buddy_index p cr) (get_buddy_index p cr) hcr1 hcr16 hr1'
              hr16' hβmem hq (covers_head _ cr) (covers_head _ r')
            have := hcover (get_buddy_index p cr) hβlt
            omega
          have hβalloc : ∀ e ∈ aR, e.1 ≠ get_buddy_index p cr := by
            intro e he hee
            have hce : covers e (get_buddy_index p cr) = true := by
              have hh : covers e e.1 = true := covers_head e.1 e.2
              rw [hee] at hh
              exact hh
            have h1 := cover_count_ge_one aR e _ he hce
            have h2 := covSum_ge_one ls cr (get_buddy_index p cr)
              (get_buddy_index p cr) hcr1 hcr16 hβmem (covers_head _ cr)
            have := hcover (get_buddy_index p cr) hβlt
            omega
          have hrm : cr - 1 + 1 = cr := by omega
          have h2c : (2 : Nat) ^ cr = 2 ^ (cr - 1) + 2 ^ (cr - 1) := by
            conv_lhs => rw [← hrm]
            rw [pow_succ]
            omega
          have hmal : min p (get_buddy_index p cr) % 2 ^ (cr + 1 - 1) = 0 := by
            rw [Nat.add_sub_cancel]
            rcases buddy_cases hal with ⟨hm2, hxa⟩ | ⟨hm2, hle2, hxa, hm2b⟩
            · have hminp : min p (get_buddy_index p cr) = p := by
                simp only [get_buddy_index]
                rw [hxa]
                omega
              rw [hminp, ← hrm]
              exact hm2
            · have hminb : min p (get_buddy_index p cr) = p - 2 ^ (cr - 1) := by
                simp only [get_buddy_index]
                rw [hxa]
                omega
              rw [hminb, ← hrm]
              exact hm2b
          have hmfit : min p (get_buddy_index p cr) + 2 ^ (cr + 1 - 1) ≤
              total := by
            rw [Nat.add_sub_cancel]
            rcases buddy_cases hal with ⟨hm2, hxa⟩ | ⟨hm2, hle2, hxa, hm2b⟩
            · have hminp : min p (get_buddy_index p cr) = p := by
                simp only [get_buddy_index]
                rw [hxa]
                omega
              have hbf : p + 2 ^ (cr - 1) + 2 ^ (cr - 1) ≤ total := by
                have hβfit' := hβfit
                simp only [get_buddy_index] at hβfit'
                rw [hxa] at hβfit'
                omega
              rw [hminp]
              omega
            · have hminb : min p (get_buddy_index p cr) = p - 2 ^ (cr - 1) := by
                simp only [get_buddy_index]
                rw [hxa]
                omega
              rw [hminb]
              omega
          have hmnf : (set_meta m (get_buddy_index p cr) ⟨cr, false⟩
              (min p (get_buddy_index p cr))).is_free = false := by
            by_cases hmin : min p (get_buddy_index p cr) = get_buddy_index p cr
            · rw [hmin, set_meta_same]
            · rw [set_meta_other m _ _ _ hmin]
              have hmp : min p (get_buddy_index p cr) = p := by omega
              rw [hmp]
              exact hnf
          rw [hβr]
          refine ih (remove_from_free_list ls cr (get_buddy_index p cr))
            (set_meta m (get_buddy_index p cr) ⟨cr, false⟩)
            (min p (get_buddy_index p cr)) (cr + 1)
            ?_ ?_ ?_ ?_ ?_ ?_ ?_ (by omega) (by omega) hmal hmfit hmnf ?_
            (by omega)
          · rw [remove_from_free_list_other ls cr _ 0 (by omega)]
            exact h0
          · intro r' hr'
            rw [remove_from_free_list_other ls cr _ r' (by omega)]
            exact hHi r' hr'
          · intro r' h1 h2 q hq
            by_cases hrc : r' = cr
            · rw [hrc, remove_from_free_list_same] at hq
              rw [hrc]
              exact hmem cr hcr1 hcr16 q (List.mem_of_mem_erase hq)
            · rw [remove_from_free_list_other ls cr _ r' hrc] at hq
              exact hmem r' h1 h2 q hq
          · intro r' q hq
            have hqβ : q ≠ get_buddy_index p cr := hβonce r' q hq
            have hqm : q ∈ ls r' := by
              by_cases hrc : r' = cr
              · rw [hrc, remove_from_free_list_same] at hq
                rw [hrc]
                exact List.mem_of_mem_erase hq
              · rw [remove_from_free_list_other ls cr _ r' hrc] at hq
                exact hq
            rw [set_meta_other m _ _ q hqβ]
            exact hcoh r' q hqm
          · intro q hq hqf
            by_cases hqβ : q = get_buddy_index p cr
            · exfalso
              rw [hqβ, set_meta_same] at hqf
              exact Bool.noConfusion hqf
            · rw [set_meta_other m _ _ q hqβ] at hqf ⊢
              have hold := hfreeIn q hq hqf
              by_cases hrc : (m q).rank = cr
              · rw [hrc] at hold ⊢
                rw [remove_from_free_list_same]
                exact (List.mem_erase_of_ne hqβ).mpr hold
              · rw [remove_from_free_list_other ls cr _ _ hrc]
                exact hold
          · intro e he
            rw [set_meta_other m _ _ e.1 (hβalloc e he)]
            exact hamem e he
          · intro r' h1 h2 q hq hbq
            by_cases hrc : r' = cr
            · rw [hrc, remove_from_free_list_same] at hq hbq
              exact hnp cr hcr1 (by omega) q (List.mem_of_mem_erase hq)
                (List.mem_of_mem_erase hbq)
            · rw [remove_from_free_list_other ls cr _ r' hrc] at hq hbq
              exact hnp r' h1 h2 q hq hbq
          · intro pg hpg
            have herase := covSum_erase ls cr (get_buddy_index p cr) hcr1
              hcr16 hβmem pg
            have hmerge : cnt (min p (get_buddy_index p cr), cr + 1) pg =
                cnt (p, cr) pg + cnt (get_buddy_index p cr, cr) pg := by
              rcases buddy_cases hal with ⟨hm2, hxa⟩ | ⟨hm2, hle2, hxa, hm2b⟩
              · have hminp : min p (get_buddy_index p cr) = p := by
                  simp only [get_buddy_index]
                  rw [hxa]
                  omega
                rw [hminp, cnt_split p cr pg hcr1]
                have hbe : get_buddy_index p cr = p + 2 ^ (cr - 1) := by
                  simp only [get_buddy_index]
                  exact hxa
                rw [hbe]
              · have hminb : min p (get_buddy_index p cr) =
                    p - 2 ^ (cr - 1) := by
                  simp only [get_buddy_index]
                  rw [hxa]
                  omega
                rw [hminb, cnt_split (p - 2 ^ (cr - 1)) cr pg hcr1]
                have hpe : p - 2 ^ (cr - 1) + 2 ^ (cr - 1) = p := by omega
                rw [hpe]
                have hbe : get_buddy_index p cr = p - 2 ^ (cr - 1) := by
                  simp only [get_buddy_index]
                  exact hxa
                rw [hbe]
                omega
            have := hcover pg hpg
            omega
    · rw [if_neg hr16]
      exact final_push_vinv ls m base total p cr aR hbase h0 hHi hmem hcoh
        hfreeIn hamem hnp hcr1 hcr16 hal hfit hcover
        (fun hlt _ => absurd hlt hr16)

/-- A contract-respecting `grelease` preserves the valid-usage invariant. -/
theorem vinv_grelease (g : GhostState) (h : VInv g) (a pi r : Nat)
    (hpage : get_page_index g.st a = some pi) (hmem : (pi, r) ∈ g.allocated) :
    VInv (grelease g a) := by
  obtain ⟨hpilt, haeq⟩ := get_page_index_some hpage
  have hA := h.amem (pi, r) hmem
  dsimp only at hA
  obtain ⟨hmeta, hr1, hr16, hral, hrfit⟩ := hA
  have hbase0 : 0 < g.st.base_addr := by
    rcases h.base with hb | hb
    · exact hb
    · omega
  have ha0 : ¬ a = 0 := by
    rw [haeq]
    simp only [PAGE_SIZE]
    omega
  have hpidx : (a - g.st.base_addr) / PAGE_SIZE = pi := by
    rw [haeq]
    simp only [PAGE_SIZE]
    omega
  have hmr : (g.st.page_metadata pi).rank = r := by rw [hmeta]
  have hmf : (g.st.page_metadata pi).is_free = false := by rw [hmeta]
  have hcond : ¬ ((g.st.page_metadata pi).rank = 0 ∨
      (g.st.page_metadata pi).is_free = true) := by
    rw [hmeta]
    simp
    omega
  have hqpi : (fun e : Nat × Nat =>
      e.1 == (a - g.st.base_addr) / PAGE_SIZE) (pi, r) = true := by
    dsimp only
    rw [hpidx]
    simp
  obtain ⟨a', l1, l2, hl1, hpa', hsplit, herase⟩ :=
    @List.exists_of_eraseP (Nat × Nat)
      (fun e => e.1 == (a - g.st.base_addr) / PAGE_SIZE)
      g.allocated (pi, r) hmem hqpi
  have ha'1 : a'.1 = pi := by
    have hb := hpa'
    rw [hpidx] at hb
    exact eq_of_beq hb
  have ha'mem : a' ∈ g.allocated := by
    rw [hsplit]
    exact List.mem_append_right l1 (List.mem_cons_self a' l2)
  have hA' := h.amem a' ha'mem
  have ha'2 : a'.2 = r := by
    have h1 := hA'.1
    rw [ha'1, hmeta] at h1
    exact (congrArg page_meta_t.rank h1).symm
  have ha'eq : a' = (pi, r) := Prod.ext ha'1 ha'2
  have hccA : ∀ pg, cover_count g.allocated pg =
      cover_count (g.allocated.eraseP
        (fun e => e.1 == (a - g.st.base_addr) / PAGE_SIZE)) pg +
      cnt (pi, r) pg := by
    intro pg
    rw [herase]
    conv_lhs => rw [hsplit]
    unfold cover_count
    simp only [List.countP_append, List.countP_cons, ha'eq]
    unfold cnt
    omega
  have hsubset : ∀ e, e ∈ g.allocated.eraseP
      (fun e => e.1 == (a - g.st.base_addr) / PAGE_SIZE) →
      e ∈ g.allocated := by
    intro e he
    rw [herase] at he
    rw [hsplit]
    rcases List.mem_append.mp he with h1 | h1
    · exact List.mem_append_left _ h1
    · exact List.mem_append_right _ (List.mem_cons_of_mem a' h1)
  have hcover0 : ∀ pg, pg < g.st.total_pages →
      covSum g.st.free_lists pg + cnt (pi, r) pg +
        cover_count (g.allocated.eraseP
          (fun e => e.1 == (a - g.st.base_addr) / PAGE_SIZE)) pg = 1 := by
    intro pg hpg
    have h1 := h.cover pg hpg
    have h2 := hccA pg
    omega
  have hamem' : ∀ e ∈ g.allocated.eraseP
      (fun e => e.1 == (a - g.st.base_addr) / PAGE_SIZE),
      g.st.page_metadata e.1 = ⟨e.2, false⟩ ∧ 1 ≤ e.2 ∧ e.2 ≤ MAX_RANK ∧
      e.1 % 2 ^ (e.2 - 1) = 0 ∧ e.1 + 2 ^ (e.2 - 1) ≤ g.st.total_pages :=
    fun e he => h.amem e (hsubset e he)
  have hml := merge_loop_vinv g.st.base_addr g.st.total_pages
    (g.allocated.eraseP (fun e => e.1 == (a - g.st.base_addr) / PAGE_SIZE))
    h.base MAX_RANK g.st.free_lists g.st.page_metadata pi r
    h.lists0 h.listsHi h.mem h.coh h.freeIn hamem' h.nopair
    hr1 hr16 hral hrfit hmf hcover0 (by omega)
  simp only [grelease, return_pages, if_neg ha0, hpage]
  rw [if_neg hcond]
  rw [if_pos rfl]
  simp only [hmr]
  exact hml

/-- Every contract-respecting instrumented state satisfies the valid-usage
invariant. -/
theorem gvalid_vinv (g : GhostState) (h : GValid g) : VInv g := by
  induction h with
  | start => exact vinv_start
  | init g hg p pgcount hp ha hn ih => exact vinv_ginit g p pgcount hp
  | alloc g hg rank ih => exact vinv_galloc g ih rank
  | release g hg a pi r hpage hmem ih =>
    exact vinv_grelease g ih a pi r hpage hmem
  | qranks g hg p ih =>
    rw [query_ranks_state]
    exact ih
  | qcounts g hg rank ih =>
    rw [query_page_counts_state]
    exact ih

/-- C2 (amended): under the spec's usage contract — `return_pages` is only
called on the head address of a currently allocated block — after every
operation no two free buddies of the same rank `r < MAX_RANK` coexist. -/
theorem C2_maximality_valid (g : GhostState) (hg : GValid g) :
    ∀ r, 1 ≤ r → r < MAX_RANK → ∀ p ∈ g.st.free_lists r,
      get_buddy_index p r ∉ g.st.free_lists r :=
  (gvalid_vinv g hg).nopair

/-- Witness for C2: on the freshly initialized two-page pool the rank-2 block
at page 0 has no free buddy in its list. -/
theorem C2_maximality_valid_witness :
    get_buddy_index 0 2 ∉
      (ginit ⟨initial_state, []⟩ 4096 2).st.free_lists 2 :=
  C2_maximality_valid (ginit ⟨initial_state, []⟩ 4096 2)
    (GValid.init ⟨initial_state, []⟩ GValid.start 4096 2 (by decide)
      (by decide) (by decide)) 2 (by decide) (by decide) 0 (by decide)

/-- C1 (amended): under the spec's usage contract, the free blocks together
with the ghost allocated blocks cover every page in `[0, total_pages)`
exactly once, and their page sums add up to `total_pages`. -/
theorem C1_conservation_valid (g : GhostState) (hg : GValid g) :
    sum_pages (free_blocks g.st) + sum_pages g.allocated =
      g.st.total_pages ∧
    ∀ pg, pg < g.st.total_pages →
      cover_count (free_blocks g.st ++ g.allocated) pg = 1 := by
  have h := gvalid_vinv g hg
  have hcov : ∀ pg, pg < g.st.total_pages →
      cover_count (free_blocks g.st ++ g.allocated) pg = 1 := by
    intro pg hpg
    unfold cover_count
    rw [List.countP_append]
    have h1 := h.cover pg hpg
    have h2 := cover_count_eq_covSum g.st pg
    unfold cover_count at h1 h2
    omega
  refine ⟨?_, hcov⟩
  have hfitL : ∀ e ∈ free_blocks g.st ++ g.allocated,
      e.1 + 2 ^ (e.2 - 1) ≤ g.st.total_pages := by
    intro e he
    rcases List.mem_append.mp he with h1 | h1
    · unfold free_blocks at h1
      rw [List.mem_flatten] at h1
      obtain ⟨l, hl, hel⟩ := h1
      rw [List.mem_map] at hl
      obtain ⟨k, hk, hlk⟩ := hl
      rw [← hlk, List.mem_map] at hel
      obtain ⟨q, hq, hqe⟩ := hel
      rw [List.mem_range] at hk
      rw [← hqe]
      dsimp only
      exact (h.mem (k + 1) (by omega) (by omega) q hq).2
    · exact (h.amem e h1).2.2.2.2
  have hblock : ∀ e ∈ free_blocks g.st ++ g.allocated,
      block_pages e = (List.range g.st.total_pages).countP
        (fun pg => covers e pg) := by
    intro e he
    have hfit := hfitL e he
    have hpos := Nat.two_pow_pos (e.2 - 1)
    unfold block_pages
    have hco : (fun pg => covers e pg) =
        (fun pg => decide (e.1 ≤ pg ∧ pg < e.1 + 2 ^ (e.2 - 1))) := rfl
    rw [hco, countP_range_interval e.1 (e.1 + 2 ^ (e.2 - 1))
      g.st.total_pages]
    omega
  have hsplitsum : sum_pages (free_blocks g.st ++ g.allocated) =
      sum_pages (free_blocks g.st) + sum_pages g.allocated := by
    unfold sum_pages
    rw [List.map_append, List.sum_append]
  have hc1 : sum_pages (free_blocks g.st ++ g.allocated) =
      ((free_blocks g.st ++ g.allocated).map
        (fun e => (List.range g.st.total_pages).countP
          (fun pg => covers e pg))).sum := by
    unfold sum_pages
    exact congrArg List.sum (List.map_congr_left hblock)
  have hc2 := sum_countP_exchange (free_blocks g.st ++ g.allocated)
    (List.range g.st.total_pages) (fun e pg => covers e pg)
  have hc3 : (List.range g.st.total_pages).map
      (fun pg => (free_blocks g.st ++ g.allocated).countP
        (fun e => covers e pg)) =
      (List.range g.st.total_pages).map (fun _ => 1) := by
    refine List.map_congr_left ?_
    intro pg hpg
    rw [List.mem_range] at hpg
    exact hcov pg hpg
  calc sum_pages (free_blocks g.st) + sum_pages g.allocated
      = sum_pages (free_blocks g.st ++ g.allocated) := hsplitsum.symm
    _ = ((free_blocks g.st ++ g.allocated).map
        (fun e => (List.range g.st.total_pages).countP
          (fun pg => covers e pg))).sum := hc1
    _ = ((List.range g.st.total_pages).map
        (fun pg => (free_blocks g.st ++ g.allocated).countP
          (fun e => covers e pg))).sum := hc2
    _ = ((List.range g.st.total_pages).map (fun _ => 1)).sum := by rw [hc3]
    _ = (List.range g.st.total_pages).length :=
        sum_map_one (List.range g.st.total_pages)
    _ = g.st.total_pages := List.length_range g.st.total_pages

/-- Witness for C1: on the freshly initialized two-page pool the single free
block accounts for both pages, and page 0 is covered exactly once. -/
theorem C1_conservation_valid_witness :
    (sum_pages (free_blocks (ginit ⟨initial_state, []⟩ 4096 2).st) +
      sum_pages (ginit ⟨initial_state, []⟩ 4096 2).allocated =
      (ginit ⟨initial_state, []⟩ 4096 2).st.total_pages) ∧
    cover_count (free_blocks (ginit ⟨initial_state, []⟩ 4096 2).st ++
      (ginit ⟨initial_state, []⟩ 4096 2).allocated) 0 = 1 :=
  ⟨(C1_conservation_valid (ginit ⟨initial_state, []⟩ 4096 2)
      (GValid.init ⟨initial_state, []⟩ GValid.start 4096 2 (by decide)
        (by decide) (by decide))).1,
   (C1_conservation_valid (ginit ⟨initial_state, []⟩ 4096 2)
      (GValid.init ⟨initial_state, []⟩ GValid.start 4096 2 (by decide)
        (by decide) (by decide))).2 0 (by decide)⟩
